import Mathlib

/-!
# Verification of the tutu network-intelligence core

Shallow embedding of the Go sources of the `tutu` repository
(`internal/infra/gossip/swim.go`, `internal/infra/autoscale/autoscale.go`,
`internal/infra/mlscheduler/mlscheduler.go`,
`internal/infra/intelligence/intelligence.go`, and the `dsa` package with the
priority queue and Bloom filter), together with proofs of the behavioural
claims about membership-state conflict resolution, scaler capacity bounds,
UCB1 selection, Welford statistics, reward computation, placement
optimisation, heap ordering, and Bloom-filter membership.

Modelling conventions:
* Go `float64` values are modelled as exact rationals (`ℚ`); transcendental
  helpers (`math.Sqrt`, `math.Log`) are abstract function parameters, so every
  theorem holds for the actual IEEE functions pointwise.
* Go `time.Time` / `time.Duration` are modelled as integers (nanoseconds);
  the injectable clocks (`cfg.Now`) become explicit `now` arguments.
* Go integer division truncates toward zero; it is modelled by `Int.tdiv`.
* Go maps iterated in loops are modelled as association lists.
-/

set_option maxHeartbeats 1000000

/-! ## Membership (SWIM): `applyStateUpdate` — internal/infra/gossip/swim.go -/

namespace Gossip

/-- Peer lifecycle state (`domain.PeerAlive/PeerSuspect/PeerDead`). -/
inductive PeerState where
  | alive
  | suspect
  | dead
deriving DecidableEq, Repr

/-- A piggybacked membership state change (`StateUpdate` in swim.go). -/
structure StateUpdate where
  nodeID : String
  state : PeerState
  incarnation : ℕ
deriving DecidableEq, Repr

/-- The per-peer record kept in `SWIM.members` (`member` struct in swim.go).
`suspectAt` is the suspicion timestamp (nanoseconds); the zero value plays
the role of Go's zero `time.Time`. -/
structure Member where
  state : PeerState
  incarnation : ℕ
  suspectAt : ℤ
deriving DecidableEq, Repr

/-- `applyStateUpdate` from swim.go, restricted to one known member `m`
(the code looks the node up in `s.members` and returns unchanged when the
node is unknown).  `now` stands for `time.Now()`.  Returns the updated
member record. -/
def applyStateUpdate (m : Member) (su : StateUpdate) (now : ℤ) : Member :=
  -- Only apply if incarnation is newer (or same incarnation + worse state)
  if su.incarnation < m.incarnation then m
  else
    match su.state with
    | PeerState.suspect =>
        if m.state = PeerState.alive then
          { m with state := PeerState.suspect, suspectAt := now,
                   incarnation := su.incarnation }
        else m
    | PeerState.dead =>
        { m with state := PeerState.dead, incarnation := su.incarnation }
    | PeerState.alive =>
        if su.incarnation > m.incarnation then
          { state := PeerState.alive, incarnation := su.incarnation,
            suspectAt := 0 }
        else m

end Gossip

/-- **C1** — For a known member with current `(state, incarnation)` and an
incoming update `(state', incarnation')`: the update is rejected when
`incarnation' < incarnation`; a Dead update is applied whenever
`incarnation' ≥ incarnation`; an Alive update is applied only when
`incarnation'` is strictly greater; a Suspect update at
`incarnation' ≥ incarnation` changes the member's state only when the
current state is Alive. -/
theorem applyStateUpdate_conflict_resolution
    (m : Gossip.Member) (su : Gossip.StateUpdate) (now : ℤ) :
    (su.incarnation < m.incarnation →
      Gossip.applyStateUpdate m su now = m) ∧
    (su.incarnation ≥ m.incarnation → su.state = Gossip.PeerState.dead →
      (Gossip.applyStateUpdate m su now).state = Gossip.PeerState.dead ∧
      (Gossip.applyStateUpdate m su now).incarnation = su.incarnation) ∧
    (su.state = Gossip.PeerState.alive →
      (su.incarnation > m.incarnation →
        (Gossip.applyStateUpdate m su now).state = Gossip.PeerState.alive ∧
        (Gossip.applyStateUpdate m su now).incarnation = su.incarnation) ∧
      (su.incarnation ≤ m.incarnation →
        Gossip.applyStateUpdate m su now = m)) ∧
    (su.incarnation ≥ m.incarnation → su.state = Gossip.PeerState.suspect →
      m.state ≠ Gossip.PeerState.alive →
      Gossip.applyStateUpdate m su now = m) ∧
    (su.incarnation ≥ m.incarnation → su.state = Gossip.PeerState.suspect →
      m.state = Gossip.PeerState.alive →
      (Gossip.applyStateUpdate m su now).state = Gossip.PeerState.suspect) := by
  unfold Gossip.applyStateUpdate
  refine ⟨?_, ?_, ?_, ?_, ?_⟩
  · intro h
    simp [h]
  · intro h hdead
    have hn : ¬ su.incarnation < m.incarnation := not_lt.mpr h
    simp [hn, hdead]
  · intro halive
    constructor
    · intro hgt
      have hn : ¬ su.incarnation < m.incarnation := not_lt.mpr (le_of_lt hgt)
      simp [hn, halive, hgt]
    · intro hle
      by_cases hlt : su.incarnation < m.incarnation
      · simp [hlt]
      · have heq : ¬ su.incarnation > m.incarnation := not_lt.mpr hle
        simp [hlt, halive, heq]
  · intro h hsus hnotalive
    have hn : ¬ su.incarnation < m.incarnation := not_lt.mpr h
    simp [hn, hsus, hnotalive]
  · intro h hsus halive
    have hn : ¬ su.incarnation < m.incarnation := not_lt.mpr h
    simp [hn, hsus, halive]

/-- Witness for `applyStateUpdate_conflict_resolution` at a concrete member
and update. -/
theorem applyStateUpdate_conflict_resolution_witness :
    (3 : ℕ) < 5 ∧
    Gossip.applyStateUpdate
      ⟨Gossip.PeerState.alive, 5, 0⟩ ⟨"n1", Gossip.PeerState.dead, 3⟩ 7 =
      ⟨Gossip.PeerState.alive, 5, 0⟩ := by
  refine ⟨by decide, ?_⟩
  exact (applyStateUpdate_conflict_resolution
    ⟨Gossip.PeerState.alive, 5, 0⟩ ⟨"n1", Gossip.PeerState.dead, 3⟩ 7).1
    (by decide)

/-! ## Predictive auto-scaler — internal/infra/autoscale/autoscale.go -/

namespace Autoscale

/-- Go `int(x)` conversion of a float, modelled on ℚ: truncation toward zero. -/
def ratTrunc (q : ℚ) : ℤ := q.num.tdiv q.den

/-- Scaler configuration (`Config` in autoscale.go).  Durations are
nanoseconds; the injectable clock `Now` is passed explicitly to the
operations instead. -/
structure Config where
  alpha : ℚ
  seasonalPeriod : ℕ
  seasonalAlpha : ℚ
  scaleUpThreshold : ℚ
  scaleDownThreshold : ℚ
  minCapacity : ℤ
  maxCapacity : ℤ
  preWarmLeadTime : ℤ
  cooldownPeriod : ℤ
deriving DecidableEq, Repr

/-- Scaling direction (`Direction`). -/
inductive Direction where
  | hold
  | scaleUp
  | scaleDown
  | preWarm
deriving DecidableEq, Repr

/-- A scaling decision (`Decision`). -/
structure Decision where
  direction : Direction
  currentCapacity : ℤ
  targetCapacity : ℤ
  forecastDemand : ℚ
  confidence : ℚ
  reason : String
  decidedAt : ℤ
  proactive : Bool
deriving DecidableEq, Repr

instance : Inhabited Decision :=
  ⟨⟨Direction.hold, 0, 0, 0, 0, "", 0, false⟩⟩

/-- A demand sample (`Sample`). -/
structure Sample where
  demand : ℚ
  timestamp : ℤ
deriving DecidableEq, Repr

/-- Scaler state (`Scaler` struct, minus the mutex and the injected clock). -/
structure Scaler where
  cfg : Config
  smoothed : ℚ
  inited : Bool
  seasonal : List ℚ
  capacity : ℤ
  lastDecision : ℤ
  decisions : List Decision
  maxDecisions : ℕ
  dIdx : ℕ
  dFull : Bool
  totalSpikes : ℤ
  proactiveSpikes : ℤ
  observationCount : ℕ

/-- The validated minimum capacity (`NewScaler`: substitute 1 when the
configured floor is not positive). -/
def validMin (cfg : Config) : ℤ :=
  if cfg.minCapacity ≤ 0 then 1 else cfg.minCapacity

/-- The validated maximum capacity (`NewScaler`: substitute 1000 when not
positive, then raise the ceiling to the validated floor if needed). -/
def validMax (cfg : Config) : ℤ :=
  let mx := if cfg.maxCapacity ≤ 0 then 1000 else cfg.maxCapacity
  if mx < validMin cfg then validMin cfg else mx

/-- The validation `NewScaler` performs on its configuration argument,
substituting defaults for out-of-range values (field by field; the checks
are independent except that the capacity ceiling is raised to the validated
floor). -/
def validateConfig (cfg : Config) : Config :=
  { alpha := if cfg.alpha ≤ 0 ∨ cfg.alpha > 1 then 3/10 else cfg.alpha
    seasonalPeriod := if cfg.seasonalPeriod = 0 then 24 else cfg.seasonalPeriod
    seasonalAlpha := if cfg.seasonalAlpha ≤ 0 ∨ cfg.seasonalAlpha > 1 then 1/10
                     else cfg.seasonalAlpha
    scaleUpThreshold := cfg.scaleUpThreshold
    scaleDownThreshold := cfg.scaleDownThreshold
    minCapacity := validMin cfg
    maxCapacity := validMax cfg
    preWarmLeadTime := if cfg.preWarmLeadTime ≤ 0 then 600000000000
                       else cfg.preWarmLeadTime
    cooldownPeriod := if cfg.cooldownPeriod ≤ 0 then 300000000000
                      else cfg.cooldownPeriod }

/-- `NewScaler`: validate the configuration, start with a flat seasonal
profile and capacity at the floor. -/
def newScaler (rawCfg : Config) : Scaler :=
  let cfg := validateConfig rawCfg
  { cfg := cfg
    smoothed := 0
    inited := false
    seasonal := List.replicate cfg.seasonalPeriod 1
    capacity := cfg.minCapacity
    lastDecision := 0
    decisions := List.replicate 10000 default
    maxDecisions := 10000
    dIdx := 0
    dFull := false
    totalSpikes := 0
    proactiveSpikes := 0
    observationCount := 0 }

/-- Hour of day of a timestamp given in nanoseconds (`t.Hour()`, UTC). -/
def hourOf (t : ℤ) : ℕ := ((t / 3600000000000) % 24).toNat

/-- Minute within the hour of a timestamp in nanoseconds (`t.Minute()`). -/
def minuteOf (t : ℤ) : ℕ := ((t / 60000000000) % 60).toNat

/-- `seasonBucket`: hour of day for the default period, otherwise the day is
split into equal buckets. -/
def seasonBucket (cfg : Config) (t : ℤ) : ℕ :=
  if cfg.seasonalPeriod = 24 then hourOf t
  else
    let minuteOfDay := hourOf t * 60 + minuteOf t
    let bucketSize := (24 * 60) / cfg.seasonalPeriod
    let bucketSize := if bucketSize = 0 then 1 else bucketSize
    let bucket := minuteOfDay / bucketSize
    if bucket ≥ cfg.seasonalPeriod then cfg.seasonalPeriod - 1 else bucket

/-- `RecordDemand`: exponential-smoothing update with seasonal indices. -/
def recordDemand (s : Scaler) (sample : Sample) : Scaler :=
  let bucket := seasonBucket s.cfg sample.timestamp
  if !s.inited then
    { s with smoothed := sample.demand, inited := true,
             observationCount := s.observationCount + 1 }
  else
    let seasonalFactor := s.seasonal.getD bucket 1
    let seasonalFactor := if seasonalFactor ≤ 0 then 1 else seasonalFactor
    let deseasonalized := sample.demand / seasonalFactor
    let smoothed := s.cfg.alpha * deseasonalized + (1 - s.cfg.alpha) * s.smoothed
    let seasonal :=
      if smoothed > 0 then
        let observed := sample.demand / smoothed
        s.seasonal.set bucket
          (s.cfg.seasonalAlpha * observed +
            (1 - s.cfg.seasonalAlpha) * s.seasonal.getD bucket 1)
      else s.seasonal
    { s with smoothed := smoothed, seasonal := seasonal,
             observationCount := s.observationCount + 1 }

/-- `forecastLocked`: smoothed level times the seasonal index of the bucket. -/
def forecastLocked (s : Scaler) (at' : ℤ) : ℚ :=
  if !s.inited then 0
  else s.smoothed * s.seasonal.getD (seasonBucket s.cfg at') 1

/-- `clampCapacity`: keep a capacity target within the configured bounds. -/
def clampCapacity (cfg : Config) (target : ℤ) : ℤ :=
  if target < cfg.minCapacity then cfg.minCapacity
  else if target > cfg.maxCapacity then cfg.maxCapacity
  else target

/-- `recordDecisionLocked`: write a decision into the ring buffer at the
write index, advance the index and wrap. -/
def recordDecision (s : Scaler) (d : Decision) : Scaler :=
  if s.dIdx + 1 ≥ s.maxDecisions then
    { s with decisions := s.decisions.set s.dIdx d, dIdx := 0, dFull := true }
  else
    { s with decisions := s.decisions.set s.dIdx d, dIdx := s.dIdx + 1 }

/-- `Evaluate`: produce a scaling decision and the updated scaler state.
`now` stands for `s.cfg.Now()`. -/
def evaluate (s : Scaler) (now : ℤ) : Decision × Scaler :=
  let forecast := forecastLocked s now
  let forecastAhead := forecastLocked s (now + s.cfg.preWarmLeadTime)
  let confidence : ℚ := (s.observationCount : ℚ) / 48
  let confidence := if confidence > 1 then 1 else confidence
  let decision : Decision :=
    { direction := Direction.hold
      currentCapacity := s.capacity
      targetCapacity := s.capacity
      forecastDemand := forecast
      confidence := confidence
      reason := ""
      decidedAt := now
      proactive := false }
  if s.lastDecision ≠ 0 ∧ now - s.lastDecision < s.cfg.cooldownPeriod then
    let d := { decision with reason := "cooldown active — holding" }
    (d, recordDecision s d)
  else
    let capFloat : ℚ := (s.capacity : ℚ)
    if forecastAhead > capFloat * s.cfg.scaleUpThreshold ∧
        forecast ≤ capFloat * s.cfg.scaleUpThreshold then
      let target := clampCapacity s.cfg
        (ratTrunc (forecastAhead / s.cfg.scaleUpThreshold) + 1)
      let d := { decision with
        direction := Direction.preWarm
        targetCapacity := target
        proactive := true
        reason := "forecast shows upcoming spike — pre-warming nodes" }
      (d, recordDecision
        { s with capacity := target, lastDecision := now,
                 proactiveSpikes := s.proactiveSpikes + 1,
                 totalSpikes := s.totalSpikes + 1 } d)
    else if forecast > capFloat * s.cfg.scaleUpThreshold then
      let target := clampCapacity s.cfg
        (ratTrunc (forecast / s.cfg.scaleUpThreshold) + 1)
      let d := { decision with
        direction := Direction.scaleUp
        targetCapacity := target
        proactive := false
        reason := "demand exceeds capacity threshold — scaling up" }
      (d, recordDecision
        { s with capacity := target, lastDecision := now,
                 totalSpikes := s.totalSpikes + 1 } d)
    else if forecast < capFloat * s.cfg.scaleDownThreshold ∧
        s.capacity > s.cfg.minCapacity then
      let target := clampCapacity s.cfg
        (ratTrunc (forecast / s.cfg.scaleDownThreshold) + 1)
      if target < s.capacity then
        let d := { decision with
          direction := Direction.scaleDown
          targetCapacity := target
          reason := "demand below threshold — scaling down" }
        (d, recordDecision { s with capacity := target, lastDecision := now } d)
      else
        let d := { decision with
          reason := "demand within acceptable range — holding" }
        (d, recordDecision s d)
    else
      let d := { decision with
        reason := "demand within acceptable range — holding" }
      (d, recordDecision s d)

/-- `RecordSpike`. -/
def recordSpike (s : Scaler) (proactive : Bool) : Scaler :=
  { s with totalSpikes := s.totalSpikes + 1,
           proactiveSpikes := if proactive then s.proactiveSpikes + 1
                              else s.proactiveSpikes }

/-- `SetCapacity`. -/
def setCapacity (s : Scaler) (n : ℤ) : Scaler :=
  { s with capacity := clampCapacity s.cfg n }

/-- `Capacity`. -/
def capacityOf (s : Scaler) : ℤ := s.capacity

/-- `Reset`: clear all learned state. -/
def reset (s : Scaler) : Scaler :=
  { s with smoothed := 0, inited := false, observationCount := 0,
           seasonal := List.replicate s.seasonal.length 1,
           capacity := s.cfg.minCapacity,
           lastDecision := 0,
           decisions := List.replicate s.maxDecisions default,
           dIdx := 0, dFull := false,
           totalSpikes := 0, proactiveSpikes := 0 }

/-- One public scaler operation (the interleavings of claim C2). -/
inductive Op where
  | evaluate (now : ℤ)
  | setCapacity (n : ℤ)
  | recordDemand (sample : Sample)
  | reset
deriving Repr

/-- Apply one operation to the scaler state. -/
def applyOp (s : Scaler) : Op → Scaler
  | Op.evaluate now => (evaluate s now).2
  | Op.setCapacity n => setCapacity s n
  | Op.recordDemand sample => recordDemand s sample
  | Op.reset => reset s

/-- Run a sequence of operations. -/
def runOps (s : Scaler) (ops : List Op) : Scaler :=
  ops.foldl applyOp s

/-- Number of stored decisions, as `Stats` counts them. -/
def totalDecisions (s : Scaler) : ℕ :=
  if s.dFull then s.maxDecisions else s.dIdx

end Autoscale

namespace Autoscale

/-- `clampCapacity` lands in `[minCapacity, maxCapacity]` when the bounds are
ordered. -/
theorem clampCapacity_mem (cfg : Config) (n : ℤ)
    (h : cfg.minCapacity ≤ cfg.maxCapacity) :
    cfg.minCapacity ≤ clampCapacity cfg n ∧
    clampCapacity cfg n ≤ cfg.maxCapacity := by
  unfold clampCapacity
  split_ifs <;> omega

/-- The validated configuration has `1 ≤ minCapacity ≤ maxCapacity`. -/
theorem validateConfig_capacity_ordered (cfg : Config) :
    1 ≤ (validateConfig cfg).minCapacity ∧
    (validateConfig cfg).minCapacity ≤ (validateConfig cfg).maxCapacity := by
  simp only [validateConfig, validMin, validMax]
  split_ifs <;> omega

/-- `recordDecision` leaves configuration, capacity and cooldown clock
untouched. -/
theorem recordDecision_frame (s : Scaler) (d : Decision) :
    (recordDecision s d).cfg = s.cfg ∧
    (recordDecision s d).capacity = s.capacity ∧
    (recordDecision s d).lastDecision = s.lastDecision := by
  unfold recordDecision
  split_ifs <;> exact ⟨rfl, rfl, rfl⟩

/-- The ring buffer after `recordDecision`: the decision lands at the old
write index, and the stored-decision count grows by one up to the cap. -/
theorem recordDecision_ring (s : Scaler) (d : Decision) :
    (recordDecision s d).decisions = s.decisions.set s.dIdx d ∧
    totalDecisions (recordDecision s d) =
      min (totalDecisions s + 1) s.maxDecisions := by
  unfold recordDecision totalDecisions
  split_ifs <;> simp_all <;> omega

/-- The capacity invariant: bounds ordered, floor positive, capacity inside. -/
def CapInv (s : Scaler) : Prop :=
  1 ≤ s.cfg.minCapacity ∧ s.cfg.minCapacity ≤ s.cfg.maxCapacity ∧
  s.cfg.minCapacity ≤ s.capacity ∧ s.capacity ≤ s.cfg.maxCapacity

theorem capInv_newScaler (rawCfg : Config) : CapInv (newScaler rawCfg) := by
  obtain ⟨h1, h2⟩ := validateConfig_capacity_ordered rawCfg
  exact ⟨h1, h2, le_refl _, h2⟩

theorem capInv_evaluate (s : Scaler) (now : ℤ) (h : CapInv s) :
    CapInv (evaluate s now).2 := by
  obtain ⟨h1, h2, h3, h4⟩ := h
  simp only [evaluate]
  split_ifs with c1 c2 c3 c4 c5 <;>
    simp only [CapInv, (recordDecision_frame _ _).1,
      (recordDecision_frame _ _).2.1] <;>
    refine ⟨h1, h2, ?_, ?_⟩ <;>
    first
      | exact h3
      | exact h4
      | exact (clampCapacity_mem s.cfg _ h2).1
      | exact (clampCapacity_mem s.cfg _ h2).2

theorem capInv_setCapacity (s : Scaler) (n : ℤ) (h : CapInv s) :
    CapInv (setCapacity s n) := by
  obtain ⟨h1, h2, _, _⟩ := h
  exact ⟨h1, h2, (clampCapacity_mem s.cfg n h2).1, (clampCapacity_mem s.cfg n h2).2⟩

theorem capInv_recordDemand (s : Scaler) (sample : Sample) (h : CapInv s) :
    CapInv (recordDemand s sample) := by
  obtain ⟨h1, h2, h3, h4⟩ := h
  simp only [recordDemand]
  split_ifs <;> exact ⟨h1, h2, h3, h4⟩

theorem capInv_reset (s : Scaler) (h : CapInv s) : CapInv (reset s) := by
  obtain ⟨h1, h2, _, _⟩ := h
  exact ⟨h1, h2, le_refl _, h2⟩

theorem capInv_applyOp (s : Scaler) (op : Op) (h : CapInv s) :
    CapInv (applyOp s op) := by
  cases op with
  | evaluate now => exact capInv_evaluate s now h
  | setCapacity n => exact capInv_setCapacity s n h
  | recordDemand sample => exact capInv_recordDemand s sample h
  | reset => exact capInv_reset s h

theorem capInv_runOps (s : Scaler) (ops : List Op) (h : CapInv s) :
    CapInv (runOps s ops) := by
  induction ops generalizing s with
  | nil => exact h
  | cons op rest ih => exact ih (applyOp s op) (capInv_applyOp s op h)

end Autoscale

/-- **C2** — Starting from `NewScaler`, after any interleaving of `Evaluate`,
`SetCapacity`, `RecordDemand` and `Reset` the capacity stays within
`[MinCapacity, MaxCapacity]`; and for every integer `n`, `SetCapacity n`
followed by `Capacity()` yields exactly `clampCapacity n`. -/
theorem scaler_capacity_invariant (rawCfg : Autoscale.Config)
    (ops : List Autoscale.Op) (n : ℤ) :
    (Autoscale.runOps (Autoscale.newScaler rawCfg) ops).cfg.minCapacity ≤
      (Autoscale.runOps (Autoscale.newScaler rawCfg) ops).capacity ∧
    (Autoscale.runOps (Autoscale.newScaler rawCfg) ops).capacity ≤
      (Autoscale.runOps (Autoscale.newScaler rawCfg) ops).cfg.maxCapacity ∧
    Autoscale.capacityOf
      (Autoscale.setCapacity (Autoscale.runOps (Autoscale.newScaler rawCfg) ops) n) =
      Autoscale.clampCapacity
        (Autoscale.runOps (Autoscale.newScaler rawCfg) ops).cfg n := by
  obtain ⟨_, _, h3, h4⟩ :=
    Autoscale.capInv_runOps _ ops (Autoscale.capInv_newScaler rawCfg)
  exact ⟨h3, h4, rfl⟩

/-- **C10** — Every `Evaluate` call writes exactly one decision record into the
bounded history (the produced decision lands at the old write index, and the
stored count grows by one up to the ring capacity), including Hold decisions;
and any `Evaluate` that returns a Hold decision leaves `capacity` and
`last_decision` unchanged. -/
theorem evaluate_records_one_decision (s : Autoscale.Scaler) (now : ℤ) :
    Autoscale.totalDecisions (Autoscale.evaluate s now).2 =
      min (Autoscale.totalDecisions s + 1) s.maxDecisions ∧
    (s.dIdx < s.decisions.length →
      ((Autoscale.evaluate s now).2.decisions)[s.dIdx]? =
        some (Autoscale.evaluate s now).1) ∧
    ((Autoscale.evaluate s now).1.direction = Autoscale.Direction.hold →
      (Autoscale.evaluate s now).2.capacity = s.capacity ∧
      (Autoscale.evaluate s now).2.lastDecision = s.lastDecision) := by
  have hframe := fun d => Autoscale.recordDecision_frame s d
  have hring := fun d => Autoscale.recordDecision_ring s d
  simp only [Autoscale.evaluate]
  split_ifs with c1 c2 c3 c4 c5 <;>
    refine ⟨?_, fun hidx => ?_, fun hhold => ?_⟩ <;>
    first
      | exact (Autoscale.recordDecision_ring _ _).2
      | (rw [(Autoscale.recordDecision_ring _ _).1]
         exact List.getElem?_set_self (by simpa using hidx))
      | exact ⟨((Autoscale.recordDecision_frame _ _).2.1),
              ((Autoscale.recordDecision_frame _ _).2.2)⟩
      | simp_all

/-- A small concrete scaler state used to witness
`evaluate_records_one_decision`. -/
def c10Scaler : Autoscale.Scaler :=
  { cfg := ⟨3/10, 24, 1/10, 4/5, 3/10, 1, 1000, 600000000000, 300000000000⟩
    smoothed := 0
    inited := false
    seasonal := List.replicate 24 1
    capacity := 1
    lastDecision := 0
    decisions := [default]
    maxDecisions := 1
    dIdx := 0
    dFull := false
    totalSpikes := 0
    proactiveSpikes := 0
    observationCount := 0 }

/-- Witness for `evaluate_records_one_decision`: a concrete scaler state in
which `Evaluate` holds, with its inner hypotheses discharged. -/
theorem evaluate_records_one_decision_witness :
    Autoscale.totalDecisions (Autoscale.evaluate c10Scaler 0).2 = 1 ∧
    ((Autoscale.evaluate c10Scaler 0).2.decisions)[0]? =
      some (Autoscale.evaluate c10Scaler 0).1 ∧
    (Autoscale.evaluate c10Scaler 0).2.capacity = 1 := by
  have h := evaluate_records_one_decision c10Scaler 0
  have hdir : (Autoscale.evaluate c10Scaler 0).1.direction =
      Autoscale.Direction.hold := by
    norm_num [Autoscale.evaluate, c10Scaler, Autoscale.forecastLocked,
      Autoscale.recordDecision]
  refine ⟨?_, h.2.1 (by decide), ?_⟩
  · rw [h.1]
    decide
  · exact (h.2.2 hdir).1

/-- A concrete scaler state on which claim C3 (as stated) fails: with
`capacity = 5`, `ScaleDownThreshold = 1/2` and a forecast of `23/10`, the
scale-down target `clamp(trunc(F/SDT)+1) = 5` is not below the current
capacity, so `Evaluate` holds instead of scaling down. -/
def c3Scaler : Autoscale.Scaler :=
  { cfg := ⟨3/10, 24, 1/10, 4/5, 1/2, 1, 1000, 600000000000, 300000000000⟩
    smoothed := 23/10
    inited := true
    seasonal := List.replicate 24 1
    capacity := 5
    lastDecision := 0
    decisions := [default]
    maxDecisions := 1
    dIdx := 0
    dFull := false
    totalSpikes := 0
    proactiveSpikes := 0
    observationCount := 48 }

/-- Counterexample to C3 as stated: all of the claim's premises hold at
`c3Scaler` (cooldown elapsed, neither PreWarm nor ScaleUp applies,
`F < C·ScaleDownThreshold`, `C > MinCapacity`), yet `Evaluate` does not
return a ScaleDown decision and leaves the capacity unchanged. -/
theorem evaluate_scaleDown_claim_counterexample :
    ¬(c3Scaler.lastDecision ≠ 0 ∧
        (0 : ℤ) - c3Scaler.lastDecision < c3Scaler.cfg.cooldownPeriod) ∧
    ¬(Autoscale.forecastLocked c3Scaler (0 + c3Scaler.cfg.preWarmLeadTime) >
        (c3Scaler.capacity : ℚ) * c3Scaler.cfg.scaleUpThreshold) ∧
    ¬(Autoscale.forecastLocked c3Scaler 0 >
        (c3Scaler.capacity : ℚ) * c3Scaler.cfg.scaleUpThreshold) ∧
    Autoscale.forecastLocked c3Scaler 0 <
      (c3Scaler.capacity : ℚ) * c3Scaler.cfg.scaleDownThreshold ∧
    c3Scaler.capacity > c3Scaler.cfg.minCapacity ∧
    (Autoscale.evaluate c3Scaler 0).1.direction ≠ Autoscale.Direction.scaleDown ∧
    (Autoscale.evaluate c3Scaler 0).2.capacity = c3Scaler.capacity := by
  have hf : Autoscale.forecastLocked c3Scaler 0 = 23/10 := by
    norm_num [Autoscale.forecastLocked, c3Scaler, Autoscale.seasonBucket,
      Autoscale.hourOf]
  have hfa : Autoscale.forecastLocked c3Scaler (0 + c3Scaler.cfg.preWarmLeadTime) =
      23/10 := by
    norm_num [Autoscale.forecastLocked, c3Scaler, Autoscale.seasonBucket,
      Autoscale.hourOf]
  refine ⟨by norm_num [c3Scaler], ?_, ?_, ?_, by norm_num [c3Scaler], ?_, ?_⟩
  · rw [hfa]; norm_num [c3Scaler]
  · rw [hf]; norm_num [c3Scaler]
  · rw [hf]; norm_num [c3Scaler]
  all_goals
    have ht : Int.tdiv 23 5 = 4 := by decide
    norm_num [Autoscale.evaluate, c3Scaler, Autoscale.forecastLocked,
      Autoscale.seasonBucket, Autoscale.hourOf, Autoscale.clampCapacity,
      Autoscale.ratTrunc, Autoscale.recordDecision, ht]
  all_goals decide

/-- **C3 (amended)** — For every scaler state with the cooldown elapsed, when
neither the PreWarm nor the ScaleUp condition holds, `F < C·ScaleDownThreshold`
and `C > MinCapacity`: with `target = clamp(trunc(F/ScaleDownThreshold)+1)`,
`Evaluate` returns a ScaleDown decision with that target (and adopts it as the
new capacity) exactly when `target < C`; otherwise it returns Hold and leaves
the capacity unchanged. -/
theorem evaluate_scaleDown_guarded (s : Autoscale.Scaler) (now : ℤ)
    (hcool : ¬(s.lastDecision ≠ 0 ∧
        now - s.lastDecision < s.cfg.cooldownPeriod))
    (hpre : ¬(Autoscale.forecastLocked s (now + s.cfg.preWarmLeadTime) >
          (s.capacity : ℚ) * s.cfg.scaleUpThreshold ∧
        Autoscale.forecastLocked s now ≤ (s.capacity : ℚ) * s.cfg.scaleUpThreshold))
    (hup : ¬(Autoscale.forecastLocked s now >
        (s.capacity : ℚ) * s.cfg.scaleUpThreshold))
    (hdown : Autoscale.forecastLocked s now <
        (s.capacity : ℚ) * s.cfg.scaleDownThreshold)
    (hmin : s.capacity > s.cfg.minCapacity) :
    (Autoscale.clampCapacity s.cfg
        (Autoscale.ratTrunc
          (Autoscale.forecastLocked s now / s.cfg.scaleDownThreshold) + 1) <
        s.capacity →
      (Autoscale.evaluate s now).1.direction = Autoscale.Direction.scaleDown ∧
      (Autoscale.evaluate s now).1.targetCapacity =
        Autoscale.clampCapacity s.cfg
          (Autoscale.ratTrunc
            (Autoscale.forecastLocked s now / s.cfg.scaleDownThreshold) + 1) ∧
      (Autoscale.evaluate s now).2.capacity =
        Autoscale.clampCapacity s.cfg
          (Autoscale.ratTrunc
            (Autoscale.forecastLocked s now / s.cfg.scaleDownThreshold) + 1)) ∧
    (¬ Autoscale.clampCapacity s.cfg
        (Autoscale.ratTrunc
          (Autoscale.forecastLocked s now / s.cfg.scaleDownThreshold) + 1) <
        s.capacity →
      (Autoscale.evaluate s now).1.direction = Autoscale.Direction.hold ∧
      (Autoscale.evaluate s now).2.capacity = s.capacity) := by
  simp only [Autoscale.evaluate]
  rw [if_neg hcool, if_neg hpre, if_neg hup, if_pos ⟨hdown, hmin⟩]
  constructor
  · intro htgt
    rw [if_pos htgt]
    refine ⟨rfl, rfl, ?_⟩
    rw [(Autoscale.recordDecision_frame _ _).2.1]
  · intro htgt
    rw [if_neg htgt]
    exact ⟨rfl, (Autoscale.recordDecision_frame _ _).2.1⟩

/-- A concrete scaler state witnessing the amended C3 theorem (forecast
`8/5`, capacity 5, scale-down threshold `1/2`): the target `4` is below the
capacity, so `Evaluate` scales down to 4. -/
def c3WitnessScaler : Autoscale.Scaler :=
  { cfg := ⟨3/10, 24, 1/10, 4/5, 1/2, 1, 1000, 600000000000, 300000000000⟩
    smoothed := 8/5
    inited := true
    seasonal := List.replicate 24 1
    capacity := 5
    lastDecision := 0
    decisions := [default]
    maxDecisions := 1
    dIdx := 0
    dFull := false
    totalSpikes := 0
    proactiveSpikes := 0
    observationCount := 48 }

/-- Witness for `evaluate_scaleDown_guarded` at `c3WitnessScaler`. -/
theorem evaluate_scaleDown_guarded_witness :
    (Autoscale.evaluate c3WitnessScaler 0).1.direction =
      Autoscale.Direction.scaleDown ∧
    (Autoscale.evaluate c3WitnessScaler 0).2.capacity = 4 := by
  have hf : Autoscale.forecastLocked c3WitnessScaler 0 = 8/5 := by
    norm_num [Autoscale.forecastLocked, c3WitnessScaler, Autoscale.seasonBucket,
      Autoscale.hourOf]
  have hfa : Autoscale.forecastLocked c3WitnessScaler
      (0 + c3WitnessScaler.cfg.preWarmLeadTime) = 8/5 := by
    norm_num [Autoscale.forecastLocked, c3WitnessScaler, Autoscale.seasonBucket,
      Autoscale.hourOf]
  have ht : Int.tdiv 16 5 = 3 := by decide
  have htarget : Autoscale.clampCapacity c3WitnessScaler.cfg
      (Autoscale.ratTrunc
        (Autoscale.forecastLocked c3WitnessScaler 0 /
          c3WitnessScaler.cfg.scaleDownThreshold) + 1) = 4 := by
    rw [hf]
    norm_num [Autoscale.clampCapacity, Autoscale.ratTrunc, c3WitnessScaler, ht]
  have h := (evaluate_scaleDown_guarded c3WitnessScaler 0
    (by norm_num [c3WitnessScaler])
    (by rw [hfa]; norm_num [c3WitnessScaler])
    (by rw [hf]; norm_num [c3WitnessScaler])
    (by rw [hf]; norm_num [c3WitnessScaler])
    (by norm_num [c3WitnessScaler])).1 (by rw [htarget]; norm_num [c3WitnessScaler])
  exact ⟨h.1, by rw [h.2.2, htarget]⟩

/-! ## ML scheduler (UCB1 bandit) — internal/infra/mlscheduler/mlscheduler.go -/

namespace MLScheduler

/-- Scheduler configuration (`Config`).  The injected clock is passed
explicitly; weights are rationals. -/
structure Config where
  explorationFactor : ℚ
  minObservations : ℤ
  decayFactor : ℚ
  latencyWeight : ℚ
  costWeight : ℚ
  fairnessWeight : ℚ
  historyCapacity : ℤ
deriving DecidableEq, Repr

/-- Per-arm running statistics (`armStats`): Welford mean and m2, pull count,
reward sum. -/
structure ArmStats where
  pulls : ℕ
  totalQ : ℚ
  mean : ℚ
  m2 : ℚ
  lastPull : ℤ
deriving DecidableEq, Repr

/-- The zero-value arm `&armStats{}` allocated on first pull. -/
def newArm : ArmStats := ⟨0, 0, 0, 0, 0⟩

/-- `armStats.update`: Welford's online update with a new reward. -/
def ArmStats.update (a : ArmStats) (reward : ℚ) (now : ℤ) : ArmStats :=
  let pulls := a.pulls + 1
  let totalQ := a.totalQ + reward
  let delta := reward - a.mean
  let mean := a.mean + delta / (pulls : ℚ)
  let delta2 := reward - mean
  { pulls := pulls, totalQ := totalQ, mean := mean,
    m2 := a.m2 + delta * delta2, lastPull := now }

/-- A scheduling candidate's feature vector (`Features`). -/
structure Features where
  nodeID : String
  taskType : String
  priority : ℤ
  nodeLoad : ℚ
  latencyMs : ℚ
  hasModelHot : Bool
  gpuAvailable : Bool
  vramGB : ℚ
  reputation : ℚ
  creditRate : ℚ
  queueDepth : ℤ
deriving DecidableEq, Repr

instance : Inhabited Features :=
  ⟨⟨"", "", 0, 0, 0, false, false, 0, 0, 0, 0⟩⟩

/-- `Features.armKey`: bucket load, GPU and model-hot flags into the arm
key string. -/
def Features.armKey (f : Features) : String :=
  let loadBucket : String :=
    if f.nodeLoad > 3/4 then "heavy"
    else if f.nodeLoad > 1/2 then "medium"
    else if f.nodeLoad > 1/4 then "light"
    else "idle"
  let gpu : String := if f.gpuAvailable then "gpu" else "nogpu"
  let hot : String := if f.hasModelHot then "hot" else "cold"
  f.taskType ++ ":" ++ loadBucket ++ ":" ++ gpu ++ ":" ++ hot

/-- Scheduler state (`Scheduler` struct).  The arm map is an association
list; the observation ring buffer and the latency trackers are omitted:
they are write-only with respect to the operations verified here. -/
structure Scheduler where
  cfg : Config
  arms : List (String × ArmStats)
  total : ℕ
  nodeTaskCounts : List (String × ℤ)

/-- `NewScheduler`'s validation and reward-weight normalisation. -/
def validateSchedConfig (cfg : Config) : Config :=
  let total := cfg.latencyWeight + cfg.costWeight + cfg.fairnessWeight
  { explorationFactor := if cfg.explorationFactor ≤ 0 then 3/2
                         else cfg.explorationFactor
    minObservations := if cfg.minObservations ≤ 0 then 3 else cfg.minObservations
    decayFactor := if cfg.decayFactor ≤ 0 ∨ cfg.decayFactor > 1 then 19/20
                   else cfg.decayFactor
    latencyWeight := if total ≤ 0 then 1/2 else cfg.latencyWeight / total
    costWeight := if total ≤ 0 then 3/10 else cfg.costWeight / total
    fairnessWeight := if total ≤ 0 then 1/5 else cfg.fairnessWeight / total
    historyCapacity := if cfg.historyCapacity ≤ 0 then 100000
                       else cfg.historyCapacity }

/-- `NewScheduler`: validated configuration, empty arm map and trackers. -/
def newScheduler (rawCfg : Config) : Scheduler :=
  { cfg := validateSchedConfig rawCfg, arms := [], total := 0,
    nodeTaskCounts := [] }

/-- Go map lookup `s.arms[key]` over the association list. -/
def lookupArm (arms : List (String × ArmStats)) (key : String) : Option ArmStats :=
  (arms.find? (fun p => p.1 = key)).map Prod.snd

/-- `ucb1Score`, parametrised by the real functions `math.Sqrt` and
`math.Log` (`sqrtF`, `lnF`).  `⊤` plays the role of `math.Inf(1)`. -/
def ucb1Score (sqrtF lnF : ℚ → ℚ) (s : Scheduler) (arm : ArmStats) : WithTop ℚ :=
  if arm.pulls = 0 ∨ s.total = 0 then ⊤
  else ((arm.mean + s.cfg.explorationFactor *
    sqrtF (lnF (s.total : ℚ) / (arm.pulls : ℚ)) : ℚ) : WithTop ℚ)

/-- The score `SelectNode` computes for one candidate: maximum exploration
bonus (`⊤`, i.e. `math.Inf(1)`) when the arm is missing or has fewer than
`MinObservations` pulls, otherwise the UCB1 score. -/
def candScore (sqrtF lnF : ℚ → ℚ) (s : Scheduler) (c : Features) : WithTop ℚ :=
  match lookupArm s.arms c.armKey with
  | none => ⊤
  | some arm =>
      if (arm.pulls : ℤ) < s.cfg.minObservations then ⊤
      else ucb1Score sqrtF lnF s arm

/-- The scanning loop of `SelectNode`: walk the candidates keeping the index
of the strictly best score seen so far (`score > bestScore`), starting from
`bestIdx = 0` and `bestScore = -Inf` (`⊥`). -/
def selectLoop {α β : Type} [LinearOrder β] (g : α → β) :
    List α → ℕ → ℕ → WithBot β → ℕ
  | [], _, bestIdx, _ => bestIdx
  | c :: rest, i, bestIdx, bestScore =>
      if bestScore < (g c : WithBot β) then
        selectLoop g rest (i + 1) i (g c)
      else
        selectLoop g rest (i + 1) bestIdx bestScore

/-- `SelectNode`: returns the zero value on an empty candidate list,
otherwise the candidate at the winning index and its arm key. -/
def selectNode (sqrtF lnF : ℚ → ℚ) (s : Scheduler) (candidates : List Features) :
    Features × String :=
  if candidates = [] then (default, "")
  else
    let bestIdx := selectLoop (candScore sqrtF lnF s) candidates 0 0 ⊥
    (candidates.getD bestIdx default, (candidates.getD bestIdx default).armKey)

/-- `giniCoefficient`: Gini coefficient of the node task counts.  The Go
insertion sort (ascending) is modelled by `List.insertionSort`. -/
def giniCoefficient (counts : List ℚ) : ℚ :=
  let n := counts.length
  if n < 2 then 0
  else
    let sorted := List.insertionSort (fun a b => a ≤ b) counts
    let sumWeighted := (sorted.enum.map (fun p => ((p.1 : ℚ) + 1) * p.2)).sum
    let sumTotal := sorted.sum
    if sumTotal = 0 then 0
    else (2 * sumWeighted) / ((n : ℚ) * sumTotal) - ((n : ℚ) + 1) / (n : ℚ)

/-- `ComputeReward`: combine latency, cost and fairness objectives with the
configured (normalised) weights.  Note the Go code caps each objective above
with `math.Min(·, 1)` but does not clamp below at 0. -/
def computeReward (s : Scheduler) (latencyMs creditCost : ℚ) : ℚ :=
  let gini := giniCoefficient (s.nodeTaskCounts.map (fun p => (p.2 : ℚ)))
  let latReward := 1 - min (latencyMs / 1000) 1
  let costReward := 1 - min (creditCost / 100) 1
  let fairReward := 1 - gini
  s.cfg.latencyWeight * latReward + s.cfg.costWeight * costReward +
    s.cfg.fairnessWeight * fairReward

/-- The reward formula exactly as the specification (and the Go doc comment)
states it: each objective clamped to `[0, 1]` on both sides. -/
def claimReward (wLat wCost wFair gini latencyMs creditCost : ℚ) : ℚ :=
  wLat * (1 - min (max (latencyMs / 1000) 0) 1) +
    wCost * (1 - min (max (creditCost / 100) 0) 1) +
    wFair * (1 - gini)

end MLScheduler

namespace MLScheduler

/-- Fold a finite sequence of `(reward, time)` observations through
`armStats.update`. -/
def applyUpdates (a : ArmStats) (updates : List (ℚ × ℤ)) : ArmStats :=
  updates.foldl (fun acc p => acc.update p.1 p.2) a

/-- One Welford step in product form: the new mean times the new pull count
equals the old mean times the old count plus the reward. -/
theorem update_mean_mul (a : ArmStats) (r : ℚ) (t : ℤ) :
    (a.update r t).mean * ((a.pulls : ℚ) + 1) = a.mean * (a.pulls : ℚ) + r ∧
    (a.update r t).pulls = a.pulls + 1 ∧
    (a.update r t).totalQ = a.totalQ + r := by
  have hne : ((a.pulls : ℚ) + 1) ≠ 0 := by positivity
  refine ⟨?_, rfl, rfl⟩
  show (a.mean + (r - a.mean) / ((a.pulls + 1 : ℕ) : ℚ)) * ((a.pulls : ℚ) + 1) =
    a.mean * (a.pulls : ℚ) + r
  push_cast
  field_simp
  ring

/-- The Welford invariant over a whole observation list. -/
theorem applyUpdates_invariant (updates : List (ℚ × ℤ)) :
    ∀ a : ArmStats,
      (applyUpdates a updates).pulls = a.pulls + updates.length ∧
      (applyUpdates a updates).mean * ((a.pulls : ℚ) + (updates.length : ℚ)) =
        a.mean * (a.pulls : ℚ) + (updates.map Prod.fst).sum ∧
      (applyUpdates a updates).totalQ = a.totalQ + (updates.map Prod.fst).sum := by
  induction updates with
  | nil => intro a; simp [applyUpdates]
  | cons u rest ih =>
    intro a
    have hstep := update_mean_mul a u.1 u.2
    have hih := ih (a.update u.1 u.2)
    have hpulls : (applyUpdates a (u :: rest)).pulls = a.pulls + (u :: rest).length := by
      have : applyUpdates a (u :: rest) = applyUpdates (a.update u.1 u.2) rest := rfl
      rw [this, hih.1, hstep.2.1]
      simp
      omega
    refine ⟨hpulls, ?_, ?_⟩
    · have heq : applyUpdates a (u :: rest) = applyUpdates (a.update u.1 u.2) rest := rfl
      rw [heq]
      have h2 := hih.2.1
      rw [hstep.2.1] at h2
      rw [List.length_cons]
      push_cast at h2 ⊢
      calc (applyUpdates (a.update u.1 u.2) rest).mean *
              ((a.pulls : ℚ) + ((rest.length : ℚ) + 1))
          = (applyUpdates (a.update u.1 u.2) rest).mean *
              (((a.pulls : ℚ) + 1) + (rest.length : ℚ)) := by ring
        _ = (a.update u.1 u.2).mean * ((a.pulls : ℚ) + 1) +
              (rest.map Prod.fst).sum := h2
        _ = (a.mean * (a.pulls : ℚ) + u.1) + (rest.map Prod.fst).sum := by
              rw [hstep.1]
        _ = a.mean * (a.pulls : ℚ) + (u.1 + (rest.map Prod.fst).sum) := by ring
    · have heq : applyUpdates a (u :: rest) = applyUpdates (a.update u.1 u.2) rest := rfl
      rw [heq, hih.2.2, hstep.2.2]
      simp
      ring

end MLScheduler

/-- **C5** — For every finite sequence of rewards recorded through
`armStats.update` starting from the zero-value arm: after the n-th update
the pull count equals n, the reward sum (`totalQ`) equals the sum of the
rewards, and the Welford mean equals the exact arithmetic mean of the
rewards (over ℚ, hence within any ε over floats). -/
theorem armStats_welford_mean_exact (updates : List (ℚ × ℤ)) :
    (MLScheduler.applyUpdates MLScheduler.newArm updates).pulls =
      updates.length ∧
    (MLScheduler.applyUpdates MLScheduler.newArm updates).totalQ =
      (updates.map Prod.fst).sum ∧
    (updates ≠ [] →
      (MLScheduler.applyUpdates MLScheduler.newArm updates).mean =
        (updates.map Prod.fst).sum / (updates.length : ℚ)) := by
  have h := MLScheduler.applyUpdates_invariant updates MLScheduler.newArm
  have hp : MLScheduler.newArm.pulls = 0 := rfl
  have hm : MLScheduler.newArm.mean = 0 := rfl
  have ht : MLScheduler.newArm.totalQ = 0 := rfl
  refine ⟨by rw [h.1, hp]; omega, by rw [h.2.2, ht]; ring, ?_⟩
  intro hne
  have hlen : (updates.length : ℚ) ≠ 0 := by
    have : updates.length ≠ 0 := fun h0 => hne (List.length_eq_zero.mp h0)
    exact_mod_cast this
  have h2 := h.2.1
  rw [hp, hm] at h2
  push_cast at h2
  rw [zero_add, zero_mul, zero_add] at h2
  field_simp
  rw [h2]

/-- Witness for `armStats_welford_mean_exact` on the reward list `[1, 0]`:
two pulls, mean `1/2`. -/
theorem armStats_welford_mean_exact_witness :
    (MLScheduler.applyUpdates MLScheduler.newArm [(1, 0), (0, 0)]).pulls = 2 ∧
    (MLScheduler.applyUpdates MLScheduler.newArm [(1, 0), (0, 0)]).mean = 1/2 := by
  have h := armStats_welford_mean_exact [(1, 0), (0, 0)]
  refine ⟨by rw [h.1]; rfl, ?_⟩
  have hm := h.2.2 (by simp)
  rw [hm]
  norm_num

/-- The scheduler obtained from `NewScheduler` with the default weights
`0.5/0.3/0.2` (already summing to 1, so normalisation keeps them). -/
def c6Scheduler : MLScheduler.Scheduler :=
  MLScheduler.newScheduler ⟨3/2, 3, 19/20, 1/2, 3/10, 1/5, 100000⟩

/-- **C6** — At `latency_ms = -1000`, `credit_cost = 0` (and no recorded
nodes, so gini = 0) the code returns `3/2`: `ComputeReward` caps each
objective above with `math.Min(·, 1)` but never clamps below at 0, so the
latency objective becomes `1 - (-1) = 2` and the weighted sum leaves
`[0, 1]`.  The documented formula `1 - clamp(latency_ms/1000, 0, 1)` (the
claim, and the Go doc comment) yields `1` instead.  The weights do
normalise to sum 1. -/
theorem computeReward_no_lower_clamp_bug :
    MLScheduler.computeReward c6Scheduler (-1000) 0 = 3/2 ∧
    MLScheduler.claimReward c6Scheduler.cfg.latencyWeight
      c6Scheduler.cfg.costWeight c6Scheduler.cfg.fairnessWeight 0 (-1000) 0 = 1 ∧
    MLScheduler.computeReward c6Scheduler (-1000) 0 ≠
      MLScheduler.claimReward c6Scheduler.cfg.latencyWeight
        c6Scheduler.cfg.costWeight c6Scheduler.cfg.fairnessWeight 0 (-1000) 0 ∧
    c6Scheduler.cfg.latencyWeight + c6Scheduler.cfg.costWeight +
      c6Scheduler.cfg.fairnessWeight = 1 := by
  have hw : c6Scheduler.cfg.latencyWeight = 1/2 ∧
      c6Scheduler.cfg.costWeight = 3/10 ∧
      c6Scheduler.cfg.fairnessWeight = 1/5 := by
    refine ⟨?_, ?_, ?_⟩ <;>
      norm_num [c6Scheduler, MLScheduler.newScheduler,
        MLScheduler.validateSchedConfig]
  have hcode : MLScheduler.computeReward c6Scheduler (-1000) 0 = 3/2 := by
    have hmin1 : min ((-1000 : ℚ) / 1000) 1 = -1 := by
      rw [min_eq_left] <;> norm_num
    have hmin2 : min ((0 : ℚ) / 100) 1 = 0 := by
      rw [min_eq_left] <;> norm_num
    simp only [MLScheduler.computeReward, c6Scheduler, MLScheduler.newScheduler,
      MLScheduler.giniCoefficient]
    norm_num [MLScheduler.validateSchedConfig, hmin1, hmin2]
  have hclaim : MLScheduler.claimReward c6Scheduler.cfg.latencyWeight
      c6Scheduler.cfg.costWeight c6Scheduler.cfg.fairnessWeight 0 (-1000) 0 = 1 := by
    have hmax1 : max ((-1000 : ℚ) / 1000) 0 = 0 := by
      rw [max_eq_right] <;> norm_num
    have hmax2 : max ((0 : ℚ) / 100) 0 = 0 := by
      rw [max_eq_right] <;> norm_num
    rw [MLScheduler.claimReward, hmax1, hmax2, hw.1, hw.2.1, hw.2.2]
    norm_num
  refine ⟨hcode, hclaim, ?_, by rw [hw.1, hw.2.1, hw.2.2]; norm_num⟩
  rw [hcode, hclaim]
  norm_num

namespace MLScheduler

/-- Invariant of the `SelectNode` scanning loop: starting after a processed
prefix `done` whose strict maximum (first occurrence) sits at `bestIdx` with
value `bestScore`, the loop returns the index of the first occurrence of the
maximum of `done ++ l`. -/
theorem selectLoop_spec {α β : Type} [Inhabited α] [LinearOrder β] (g : α → β) :
    ∀ (l done : List α) (bestIdx : ℕ) (bestScore : WithBot β),
      bestIdx < done.length →
      bestScore = ((g (done.getD bestIdx default) : β) : WithBot β) →
      (∀ j, j < done.length →
        ((g (done.getD j default) : β) : WithBot β) ≤ bestScore) →
      (∀ j, j < bestIdx →
        ((g (done.getD j default) : β) : WithBot β) < bestScore) →
      selectLoop g l done.length bestIdx bestScore < done.length + l.length ∧
      (∀ j, j < done.length + l.length →
        g ((done ++ l).getD j default) ≤
          g ((done ++ l).getD (selectLoop g l done.length bestIdx bestScore)
            default)) ∧
      (∀ j, j < selectLoop g l done.length bestIdx bestScore →
        g ((done ++ l).getD j default) <
          g ((done ++ l).getD (selectLoop g l done.length bestIdx bestScore)
            default)) := by
  intro l
  induction l with
  | nil =>
    intro done bestIdx bestScore hlt hval hle hstrict
    refine ⟨by simpa [selectLoop] using hlt, ?_, ?_⟩
    · intro j hj
      have := hle j (by simpa using hj)
      rw [hval] at this
      simp only [selectLoop, List.append_nil]
      exact_mod_cast this
    · intro j hj
      have := hstrict j (by simpa [selectLoop] using hj)
      rw [hval] at this
      simp only [selectLoop, List.append_nil]
      exact_mod_cast this
  | cons c rest ih =>
    intro done bestIdx bestScore hlt hval hle hstrict
    have hgetc : (done ++ [c]).getD done.length default = c := by
      simp [List.getD_eq_getElem?_getD, List.getElem?_append_right (le_refl _)]
    have hgetlt : ∀ j, j < done.length →
        (done ++ [c]).getD j default = done.getD j default := by
      intro j hj
      simp [List.getD_eq_getElem?_getD, List.getElem?_append_left hj]
    have happ : done ++ c :: rest = (done ++ [c]) ++ rest := by simp
    have hlen : (done ++ [c]).length = done.length + 1 := by simp
    by_cases hcase : bestScore < ((g c : β) : WithBot β)
    · have hstep : selectLoop g (c :: rest) done.length bestIdx bestScore =
          selectLoop g rest (done.length + 1) done.length ((g c : β) : WithBot β) := by
        simp [selectLoop, hcase]
      have hres := ih (done ++ [c]) done.length ((g c : β) : WithBot β)
        (by simp) (by rw [hgetc])
        (by
          intro j hj
          rw [hlen] at hj
          rcases Nat.lt_succ_iff_lt_or_eq.mp hj with hj' | hj'
          · rw [hgetlt j hj']
            exact le_of_lt (lt_of_le_of_lt (hle j hj') hcase)
          · rw [hj', hgetc])
        (by
          intro j hj
          rw [hgetlt j (by omega)]
          exact lt_of_le_of_lt (hle j (by omega)) hcase)
      rw [hlen] at hres
      rw [hstep, happ]
      refine ⟨by have := hres.1; simp only [List.length_cons]; omega, ?_, ?_⟩
      · intro j hj
        simp only [List.length_cons] at hj
        exact hres.2.1 j (by omega)
      · intro j hj
        exact hres.2.2 j hj
    · have hstep : selectLoop g (c :: rest) done.length bestIdx bestScore =
          selectLoop g rest (done.length + 1) bestIdx bestScore := by
        simp [selectLoop, hcase]
      have hres := ih (done ++ [c]) bestIdx bestScore
        (by simp; omega) (by rw [hgetlt bestIdx hlt]; exact hval)
        (by
          intro j hj
          rw [hlen] at hj
          rcases Nat.lt_succ_iff_lt_or_eq.mp hj with hj' | hj'
          · rw [hgetlt j hj']
            exact hle j hj'
          · rw [hj', hgetc]
            exact not_lt.mp hcase)
        (by
          intro j hj
          rw [hgetlt j (by omega)]
          exact hstrict j hj)
      rw [hlen] at hres
      rw [hstep, happ]
      refine ⟨by have := hres.1; simp only [List.length_cons]; omega, ?_, ?_⟩
      · intro j hj
        simp only [List.length_cons] at hj
        exact hres.2.1 j (by omega)
      · intro j hj
        exact hres.2.2 j hj

end MLScheduler

/-- **C4** — For every non-empty candidate list, `SelectNode` returns the
candidate (and its arm key) at the first index attaining the maximum score,
where a candidate scores `+∞` (`⊤`) when its arm is missing or has fewer
than `MinObservations` pulls and otherwise scores
`mean_q + ExplorationFactor·sqrt(ln(total_pulls)/pulls)`; ties resolve to
the earliest candidate in the caller's order.  `sqrtF`/`lnF` stand for
`math.Sqrt`/`math.Log`; the hypotheses record that the validated
configuration has `MinObservations ≥ 1` and that no arm has more pulls than
the scheduler's total (true of every reachable scheduler state). -/
theorem selectNode_ucb1_argmax (sqrtF lnF : ℚ → ℚ) (s : MLScheduler.Scheduler)
    (candidates : List MLScheduler.Features)
    (hne : candidates ≠ [])
    (hmin : 1 ≤ s.cfg.minObservations)
    (hwf : ∀ p ∈ s.arms, p.2.pulls ≤ s.total) :
    ∃ i, i < candidates.length ∧
      MLScheduler.selectNode sqrtF lnF s candidates =
        (candidates.getD i default, (candidates.getD i default).armKey) ∧
      (∀ j, j < candidates.length →
        MLScheduler.candScore sqrtF lnF s (candidates.getD j default) ≤
          MLScheduler.candScore sqrtF lnF s (candidates.getD i default)) ∧
      (∀ j, j < i →
        MLScheduler.candScore sqrtF lnF s (candidates.getD j default) <
          MLScheduler.candScore sqrtF lnF s (candidates.getD i default)) ∧
      (∀ c : MLScheduler.Features, MLScheduler.lookupArm s.arms c.armKey = none →
        MLScheduler.candScore sqrtF lnF s c = ⊤) ∧
      (∀ (c : MLScheduler.Features) (a : MLScheduler.ArmStats),
        MLScheduler.lookupArm s.arms c.armKey = some a →
        ((a.pulls : ℤ) < s.cfg.minObservations →
          MLScheduler.candScore sqrtF lnF s c = ⊤) ∧
        (s.cfg.minObservations ≤ (a.pulls : ℤ) →
          MLScheduler.candScore sqrtF lnF s c =
            ((a.mean + s.cfg.explorationFactor *
              sqrtF (lnF (s.total : ℚ) / (a.pulls : ℚ)) : ℚ) : WithTop ℚ))) := by
  obtain ⟨c, rest, rfl⟩ := List.exists_cons_of_ne_nil hne
  set g := MLScheduler.candScore sqrtF lnF s with hg
  have hstep : MLScheduler.selectLoop g (c :: rest) 0 0 ⊥ =
      MLScheduler.selectLoop g rest 1 0 ((g c : WithTop ℚ) : WithBot (WithTop ℚ)) := by
    simp [MLScheduler.selectLoop, WithBot.bot_lt_coe]
  have hspec := MLScheduler.selectLoop_spec g rest [c] 0
    ((g c : WithTop ℚ) : WithBot (WithTop ℚ))
    (by simp) (by simp)
    (by
      intro j hj
      have : j = 0 := by simpa using hj
      subst this
      simp)
    (by intro j hj; omega)
  simp only [List.length_singleton, List.singleton_append] at hspec
  refine ⟨MLScheduler.selectLoop g rest 1 0 ((g c : WithTop ℚ) : WithBot (WithTop ℚ)),
    ?_, ?_, ?_, ?_, ?_, ?_⟩
  · have := hspec.1
    simp only [List.length_cons]
    omega
  · show MLScheduler.selectNode sqrtF lnF s (c :: rest) = _
    simp only [MLScheduler.selectNode, if_neg (List.cons_ne_nil c rest)]
    rw [hstep]
  · intro j hj
    simp only [List.length_cons] at hj
    exact hspec.2.1 j (by omega)
  · intro j hj
    exact hspec.2.2 j hj
  · intro cand hnone
    rw [hg]
    unfold MLScheduler.candScore
    rw [hnone]
  · intro cand a hsome
    constructor
    · intro hlt
      rw [hg]
      unfold MLScheduler.candScore
      rw [hsome]
      simp [hlt]
    · intro hge
      have hp1 : 1 ≤ a.pulls := by
        have h1 : (1 : ℤ) ≤ (a.pulls : ℤ) := le_trans hmin hge
        exact_mod_cast h1
      have hmem : ∃ p ∈ s.arms, p.2 = a := by
        simp only [MLScheduler.lookupArm, Option.map_eq_some'] at hsome
        obtain ⟨p, hp, hpa⟩ := hsome
        exact ⟨p, List.mem_of_find?_eq_some hp, hpa⟩
      obtain ⟨p, hp, hpa⟩ := hmem
      have htot : 1 ≤ s.total := by
        have h2 := hwf p hp
        rw [hpa] at h2
        omega
      have hne0 : ¬(a.pulls = 0 ∨ s.total = 0) := by omega
      rw [hg]
      unfold MLScheduler.candScore
      rw [hsome]
      simp only [if_neg (not_lt.mpr hge)]
      unfold MLScheduler.ucb1Score
      rw [if_neg hne0]

/-- Scheduler used to witness `selectNode_ucb1_argmax` (fresh scheduler, no
arms yet). -/
def c4Scheduler : MLScheduler.Scheduler :=
  MLScheduler.newScheduler ⟨3/2, 3, 19/20, 1/2, 3/10, 1/5, 100000⟩

/-- First candidate for the `selectNode_ucb1_argmax` witness. -/
def c4Cand1 : MLScheduler.Features :=
  ⟨"n1", "INFERENCE", 0, 0, 0, false, false, 0, 0, 0, 0⟩

/-- Second candidate for the `selectNode_ucb1_argmax` witness. -/
def c4Cand2 : MLScheduler.Features :=
  ⟨"n2", "INFERENCE", 0, 0, 0, false, true, 0, 0, 0, 0⟩

/-- Witness for `selectNode_ucb1_argmax`: with no recorded arms both
candidates score `+∞` and the tie resolves to the first candidate. -/
theorem selectNode_ucb1_argmax_witness :
    MLScheduler.selectNode (fun q => q) (fun q => q) c4Scheduler
      [c4Cand1, c4Cand2] = (c4Cand1, c4Cand1.armKey) := by
  have h := selectNode_ucb1_argmax (fun q => q) (fun q => q) c4Scheduler
    [c4Cand1, c4Cand2] (by simp)
    (by norm_num [c4Scheduler, MLScheduler.newScheduler,
      MLScheduler.validateSchedConfig])
    (by intro p hp; simp [c4Scheduler, MLScheduler.newScheduler] at hp)
  obtain ⟨i, hi, heq, hle, hstrict, hnone, _⟩ := h
  have hs0 : MLScheduler.candScore (fun q => q) (fun q => q) c4Scheduler
      ([c4Cand1, c4Cand2].getD 0 default) = ⊤ := hnone _ rfl
  have hi0 : i = 0 := by
    by_contra h0
    have h1 := hstrict 0 (by omega)
    rw [hs0] at h1
    exact not_top_lt h1
  rw [hi0] at heq
  exact heq

/-! ## Bloom filter — dsa package (src/unnamed/part_001) -/

namespace Bloom

/-- Bloom filter state (`BloomFilter`): the bit array is a list of 64-bit
words (naturals below 2^64), `numBits` the total bit count, `numHash` the
number of derived hash functions, `count` the insert counter. -/
structure BloomFilter where
  bits : List ℕ
  numBits : ℕ
  numHash : ℕ
  count : ℕ

/-- `NewBloomFilter` after the floating-point sizing formulas: `m` and `k`
stand for the computed `⌈-(n·ln p)/(ln 2)²⌉` bits and `⌈(m/n)·ln 2⌉` hashes
(arbitrary naturals here, so every theorem holds for whatever the float
computation produced); zero values are replaced by 64 bits and 1 hash, and
the word array is rounded up to the next 64-bit boundary. -/
def newBloomFilter (m k : ℕ) : BloomFilter :=
  let m := if m = 0 then 64 else m
  let k := if k = 0 then 1 else k
  let words := (m + 63) / 64
  { bits := List.replicate words 0, numBits := m, numHash := k, count := 0 }

/-- `nthHash`: double hashing `h1 + i·h2` (64-bit arithmetic) modulo the bit
count.  `h1`/`h2` are the two 32-bit halves of the SHA-256 digest of the
item; they are passed in by the hash parameters below. -/
def nthHash (numBits h1 h2 i : ℕ) : ℕ :=
  ((h1 + i * h2) % 2 ^ 64) % numBits

/-- Set bit `pos` in the word array (`bf.bits[pos/64] |= 1 << (pos % 64)`). -/
def setBit (bits : List ℕ) (pos : ℕ) : List ℕ :=
  bits.set (pos / 64) (bits.getD (pos / 64) 0 ||| 1 <<< (pos % 64))

/-- Test bit `pos` (`bf.bits[pos/64] & (1 << (pos % 64)) != 0`). -/
def testBit (bits : List ℕ) (pos : ℕ) : Bool :=
  bits.getD (pos / 64) 0 &&& 1 <<< (pos % 64) ≠ 0

/-- `Add`: set the `numHash` double-hashed positions of the item and bump the
counter.  `h1 h2 : String → ℕ` stand for the two 32-bit halves of the
item's SHA-256 digest. -/
def add (h1 h2 : String → ℕ) (bf : BloomFilter) (item : String) : BloomFilter :=
  { bf with
    bits := (List.range bf.numHash).foldl
      (fun bits i => setBit bits (nthHash bf.numBits (h1 item) (h2 item) i))
      bf.bits
    count := bf.count + 1 }

/-- `Contains`: all `numHash` double-hashed positions of the item are set. -/
def contains (h1 h2 : String → ℕ) (bf : BloomFilter) (item : String) : Bool :=
  (List.range bf.numHash).all
    (fun i => testBit bf.bits (nthHash bf.numBits (h1 item) (h2 item) i))

/-- Fold a list of items through `Add`. -/
def addAll (h1 h2 : String → ℕ) (bf : BloomFilter) (items : List String) :
    BloomFilter :=
  items.foldl (add h1 h2) bf

/-- Bit-array ordering: every set bit of `v` is set in `w`, and lengths
agree. -/
def BitsLe (v w : List ℕ) : Prop :=
  v.length = w.length ∧ ∀ pos, testBit v pos = true → testBit w pos = true

theorem bitsLe_refl (v : List ℕ) : BitsLe v v := ⟨rfl, fun _ h => h⟩

theorem bitsLe_trans {u v w : List ℕ} (h1 : BitsLe u v) (h2 : BitsLe v w) :
    BitsLe u w :=
  ⟨h1.1.trans h2.1, fun pos h => h2.2 pos (h1.2 pos h)⟩

end Bloom

namespace Bloom

/-- Well-formedness of a filter: a positive bit count covered by the word
array (established by `NewBloomFilter`, preserved by `Add`). -/
def WF (bf : BloomFilter) : Prop :=
  0 < bf.numBits ∧ bf.numBits ≤ 64 * bf.bits.length

/-- The word-and-mask test is the bit test of the selected word. -/
theorem testBit_iff (bits : List ℕ) (pos : ℕ) :
    testBit bits pos = true ↔
      (bits.getD (pos / 64) 0).testBit (pos % 64) = true := by
  unfold testBit
  rw [decide_eq_true_eq, Nat.one_shiftLeft, Nat.and_two_pow]
  have hpow : (2 : ℕ) ^ (pos % 64) ≠ 0 := by positivity
  cases hbit : (bits.getD (pos / 64) 0).testBit (pos % 64) <;> simp [hbit, hpow]

theorem testBit_setBit_of_testBit (bits : List ℕ) (p pos : ℕ)
    (h : testBit bits pos = true) : testBit (setBit bits p) pos = true := by
  rw [testBit_iff] at h ⊢
  unfold setBit
  by_cases hidx : pos / 64 = p / 64
  · by_cases hlen : p / 64 < bits.length
    · rw [hidx, List.getD_eq_getElem?_getD, List.getElem?_set_self hlen]
      rw [hidx] at h
      simp only [Option.getD_some]
      rw [Nat.one_shiftLeft, Nat.testBit_or]
      rw [h]
      simp
    · rw [List.set_eq_of_length_le (by omega)]
      exact h
  · rw [List.getD_eq_getElem?_getD, List.getElem?_set_ne (fun hh => hidx hh.symm)]
    rw [List.getD_eq_getElem?_getD] at h
    exact h

theorem length_setBit (bits : List ℕ) (p : ℕ) :
    (setBit bits p).length = bits.length := by
  unfold setBit
  exact List.length_set bits _ _

theorem testBit_setBit_self (bits : List ℕ) (p : ℕ)
    (h : p / 64 < bits.length) : testBit (setBit bits p) p = true := by
  rw [testBit_iff]
  unfold setBit
  rw [List.getD_eq_getElem?_getD, List.getElem?_set_self h]
  simp only [Option.getD_some]
  rw [Nat.one_shiftLeft, Nat.testBit_or]
  simp [Nat.testBit_two_pow_self]

/-- Folding any list of positions through `setBit` only adds bits. -/
theorem bitsLe_foldl_setBit (ps : List ℕ) (bits : List ℕ) :
    BitsLe bits (ps.foldl setBit bits) := by
  induction ps generalizing bits with
  | nil => exact bitsLe_refl bits
  | cons p rest ih =>
    refine bitsLe_trans ?_ (ih (setBit bits p))
    exact ⟨(length_setBit bits p).symm, fun pos h => testBit_setBit_of_testBit bits p pos h⟩

/-- After folding a list of in-range positions through `setBit`, each of
them is set. -/
theorem foldl_setBit_sets (ps : List ℕ) (bits : List ℕ)
    (hrange : ∀ p ∈ ps, p / 64 < bits.length) :
    ∀ p ∈ ps, testBit (ps.foldl setBit bits) p = true := by
  induction ps generalizing bits with
  | nil => intro p hp; cases hp
  | cons q rest ih =>
    intro p hp
    rcases List.mem_cons.mp hp with rfl | hp'
    · have hset := testBit_setBit_self bits p (hrange p (List.mem_cons_self p rest))
      exact (bitsLe_foldl_setBit rest (setBit bits p)).2 p hset
    · exact ih (setBit bits q)
        (by
          intro r hr
          rw [length_setBit]
          exact hrange r (List.mem_cons_of_mem q hr))
        p hp'

/-- `Add` preserves the filter geometry and only adds bits. -/
theorem add_frame (h1 h2 : String → ℕ) (bf : BloomFilter) (x : String) :
    (add h1 h2 bf x).numBits = bf.numBits ∧
    (add h1 h2 bf x).numHash = bf.numHash ∧
    (add h1 h2 bf x).bits.length = bf.bits.length ∧
    BitsLe bf.bits (add h1 h2 bf x).bits := by
  have hfold : (add h1 h2 bf x).bits =
      ((List.range bf.numHash).map
        (fun i => nthHash bf.numBits (h1 x) (h2 x) i)).foldl setBit bf.bits := by
    unfold add
    rw [List.foldl_map]
  have hle : BitsLe bf.bits (add h1 h2 bf x).bits := by
    rw [hfold]; exact bitsLe_foldl_setBit _ _
  exact ⟨rfl, rfl, hle.1.symm, hle⟩

theorem wf_add (h1 h2 : String → ℕ) (bf : BloomFilter) (x : String)
    (h : WF bf) : WF (add h1 h2 bf x) := by
  obtain ⟨hf1, hf2, hf3, _⟩ := add_frame h1 h2 bf x
  exact ⟨by rw [hf1]; exact h.1, by rw [hf1, hf3]; exact h.2⟩

theorem wf_addAll (h1 h2 : String → ℕ) (items : List String) (bf : BloomFilter)
    (h : WF bf) : WF (addAll h1 h2 bf items) := by
  induction items generalizing bf with
  | nil => exact h
  | cons x rest ih => exact ih (add h1 h2 bf x) (wf_add h1 h2 bf x h)

theorem addAll_frame (h1 h2 : String → ℕ) (items : List String) (bf : BloomFilter) :
    (addAll h1 h2 bf items).numBits = bf.numBits ∧
    (addAll h1 h2 bf items).numHash = bf.numHash ∧
    BitsLe bf.bits (addAll h1 h2 bf items).bits := by
  induction items generalizing bf with
  | nil => exact ⟨rfl, rfl, bitsLe_refl _⟩
  | cons x rest ih =>
    obtain ⟨ha1, ha2, _, ha4⟩ := add_frame h1 h2 bf x
    obtain ⟨hr1, hr2, hr3⟩ := ih (add h1 h2 bf x)
    exact ⟨hr1.trans ha1, hr2.trans ha2, bitsLe_trans ha4 hr3⟩

/-- The double-hashed positions are in range for a well-formed filter. -/
theorem nthHash_div_lt (bf : BloomFilter) (h : WF bf) (a b i : ℕ) :
    nthHash bf.numBits a b i / 64 < bf.bits.length := by
  have hpos : nthHash bf.numBits a b i < bf.numBits :=
    Nat.mod_lt _ h.1
  have := h.2
  rw [Nat.div_lt_iff_lt_mul (by omega : 0 < 64)]
  omega

/-- Right after `Add x`, every hashed position of `x` is set. -/
theorem contains_add_self (h1 h2 : String → ℕ) (bf : BloomFilter) (x : String)
    (h : WF bf) : contains h1 h2 (add h1 h2 bf x) x = true := by
  unfold contains
  rw [List.all_eq_true]
  intro i hi
  have hb := (add_frame h1 h2 bf x).1
  rw [hb]
  have hfold : (add h1 h2 bf x).bits =
      ((List.range bf.numHash).map
        (fun j => nthHash bf.numBits (h1 x) (h2 x) j)).foldl setBit bf.bits := by
    unfold add
    rw [List.foldl_map]
  rw [hfold]
  have hb2 := (add_frame h1 h2 bf x).2.1
  apply foldl_setBit_sets
  · intro p hp
    rcases List.mem_map.mp hp with ⟨j, _, rfl⟩
    exact nthHash_div_lt bf h (h1 x) (h2 x) j
  · rw [hb2] at hi
    exact List.mem_map.mpr ⟨i, hi, rfl⟩

/-- `Contains` is monotone under adding bits (same geometry). -/
theorem contains_mono (h1 h2 : String → ℕ) (v w : BloomFilter) (x : String)
    (hnb : v.numBits = w.numBits) (hnh : v.numHash = w.numHash)
    (hle : BitsLe v.bits w.bits)
    (h : contains h1 h2 v x = true) : contains h1 h2 w x = true := by
  unfold contains at h ⊢
  rw [List.all_eq_true] at h ⊢
  intro i hi
  rw [← hnh] at hi
  have := h i hi
  rw [hnb] at this
  exact hle.2 _ this

end Bloom

/-- **C9** — For every Bloom filter created by `NewBloomFilter` (any sizes
`m`, `k` produced by the float formulas, any hash halves `h1`, `h2`), every
item `x`, and every sequence of `Add` operations that includes `Add x`
(items before and after are arbitrary), `Contains x` returns true: the
filter has no false negatives, and further `Add`s never destroy this. -/
theorem bloomFilter_no_false_negatives (m k : ℕ) (h1 h2 : String → ℕ)
    (before after' : List String) (x : String) :
    Bloom.contains h1 h2
      (Bloom.addAll h1 h2 (Bloom.newBloomFilter m k) (before ++ x :: after'))
      x = true := by
  have hwf0 : Bloom.WF (Bloom.newBloomFilter m k) := by
    unfold Bloom.WF Bloom.newBloomFilter
    constructor
    · dsimp only
      split_ifs <;> omega
    · simp only [List.length_replicate]
      split_ifs <;> omega
  have hsplit : Bloom.addAll h1 h2 (Bloom.newBloomFilter m k)
      (before ++ x :: after') =
      Bloom.addAll h1 h2
        (Bloom.add h1 h2 (Bloom.addAll h1 h2 (Bloom.newBloomFilter m k) before) x)
        after' := by
    unfold Bloom.addAll
    rw [List.foldl_append]
    rfl
  rw [hsplit]
  set bf1 := Bloom.addAll h1 h2 (Bloom.newBloomFilter m k) before with hbf1
  have hwf1 : Bloom.WF bf1 := Bloom.wf_addAll h1 h2 before _ hwf0
  have hadd : Bloom.contains h1 h2 (Bloom.add h1 h2 bf1 x) x = true :=
    Bloom.contains_add_self h1 h2 bf1 x hwf1
  obtain ⟨hr1, hr2, hr3⟩ := Bloom.addAll_frame h1 h2 after' (Bloom.add h1 h2 bf1 x)
  exact Bloom.contains_mono h1 h2 _ _ x hr1.symm hr2.symm hr3 hadd

/-! ## Intelligence optimizer — internal/infra/intelligence/intelligence.go -/

namespace Intelligence

/-- Optimizer configuration (`Config`). -/
structure Config where
  retirementDays : ℤ
  placementInterval : ℤ
  minRequestsForPlacement : ℤ
  maxRecommendations : ℤ
  maxRetirementCandidates : ℤ
  healthHistorySize : ℤ
deriving DecidableEq, Repr

/-- Per-model request statistics (`modelStats`). -/
structure ModelStats where
  totalReqs : ℤ
  recentReqs : ℤ
  lastReq : ℤ
  latencySum : ℚ
  latencyCount : ℤ
deriving DecidableEq, Repr

/-- Per-{node, model} statistics (`affinityStats`). -/
structure AffinityStats where
  requests : ℤ
  cacheHits : ℤ
  cacheMisses : ℤ
  latencySum : ℚ
  latencyCount : ℤ
  vramFit : ℚ
deriving DecidableEq, Repr

/-- Recommendation kind (`RecommendationType`). -/
inductive RecommendationType where
  | place
  | evict
  | move
deriving DecidableEq, Repr

/-- A placement recommendation (`Recommendation`). -/
structure Recommendation where
  type : RecommendationType
  modelName : String
  fromNode : String
  toNode : String
  reason : String
  score : ℚ
  createdAt : ℤ
deriving DecidableEq, Repr

/-- Optimizer state (`Optimizer` struct; maps become association lists, the
retirement and health-pattern parts are untouched by `Optimize` and
omitted). -/
structure Optimizer where
  cfg : Config
  popularity : List (String × ModelStats)
  affinities : List (String × List (String × AffinityStats))
  recommendations : List Recommendation
  recIdx : ℕ
  recCap : ℕ
  recFull : Bool
  lastOptimization : ℤ
  optimizationCount : ℤ

/-- Go map lookup `nodeMap[modelName]` over the association list. -/
def lookupAff (nodeMap : List (String × AffinityStats)) (modelName : String) :
    Option AffinityStats :=
  (nodeMap.find? (fun p => p.1 = modelName)).map Prod.snd

/-- `computeAffinity`: composite affinity of one `{node, model}` pair. -/
def computeAffinity (as : AffinityStats) (maxLatency : ℚ) (maxReqs : ℤ) : ℚ :=
  let total := as.cacheHits + as.cacheMisses
  let hitRate : ℚ := if total > 0 then (as.cacheHits : ℚ) / (total : ℚ) else 0
  let latScore : ℚ :=
    if as.latencyCount > 0 ∧ maxLatency > 0 then
      let avgLat := as.latencySum / (as.latencyCount : ℚ)
      let ls := 1 - avgLat / maxLatency
      if ls < 0 then 0 else ls
    else 0
  let reqShare : ℚ :=
    if maxReqs > 0 then
      let rs := (as.requests : ℚ) / (maxReqs : ℚ)
      if rs > 1 then 1 else rs
    else 0
  let vramScore : ℚ :=
    let vs := 1 - as.vramFit
    if vs < 0 then 0 else vs
  30/100 * hitRate + 30/100 * latScore + 20/100 * reqShare + 20/100 * vramScore

/-- One step of the max-latency / max-requests scan in `Optimize`. -/
def maxStep (acc : ℚ × ℤ) (as : AffinityStats) : ℚ × ℤ :=
  let maxLat := if as.latencyCount > 0 ∧
      as.latencySum / (as.latencyCount : ℚ) > acc.1 then
    as.latencySum / (as.latencyCount : ℚ) else acc.1
  let maxReqs := if as.requests > acc.2 then as.requests else acc.2
  (maxLat, maxReqs)

/-- The per-model normalisation maxima `(maxLat, maxReqs)` scanned over all
nodes serving the model. -/
def modelMaxes (affinities : List (String × List (String × AffinityStats)))
    (modelName : String) : ℚ × ℤ :=
  affinities.foldl
    (fun acc node =>
      match lookupAff node.2 modelName with
      | none => acc
      | some as => maxStep acc as)
    (0, 0)

/-- The scored candidates `(nodeID, affinity)` for one model, in node order. -/
def candidatesFor (o : Optimizer) (modelName : String) : List (String × ℚ) :=
  let m := modelMaxes o.affinities modelName
  o.affinities.filterMap
    (fun node =>
      (lookupAff node.2 modelName).map
        (fun as => (node.1, computeAffinity as m.1 m.2)))

/-- The descending comparator used by `Optimize`'s sort. -/
def descBySnd (a b : String × ℚ) : Prop := b.2 ≤ a.2

instance : DecidableRel descBySnd := fun a b => inferInstanceAs (Decidable (b.2 ≤ a.2))

instance : IsTotal (String × ℚ) descBySnd := ⟨fun a b => le_total b.2 a.2⟩

instance : IsTrans (String × ℚ) descBySnd :=
  ⟨fun _ _ _ hab hbc => le_trans hbc hab⟩

/-- The per-model body of the `Optimize` loop: skip unpopular models and
models on fewer than two nodes, sort candidates by affinity descending, and
produce a Move recommendation when the best-to-worst gap exceeds 0.3. -/
def modelRec (o : Optimizer) (now : ℤ) (entry : String × ModelStats) :
    Option Recommendation :=
  if entry.2.totalReqs < o.cfg.minRequestsForPlacement then none
  else
    let cands := candidatesFor o entry.1
    if cands.length < 2 then none
    else
      let sorted := List.insertionSort descBySnd cands
      let best := sorted.headD ("", 0)
      let worst := sorted.getLastD ("", 0)
      let gap := best.2 - worst.2
      if gap > 3/10 then
        some { type := RecommendationType.move
               modelName := entry.1
               fromNode := worst.1
               toNode := best.1
               reason := "significant affinity gap — move to higher-performing node"
               score := gap
               createdAt := now }
      else none

/-- The recommendation list built by `Optimize`: one pass over the models,
appending each model's recommendation while fewer than
`MaxRecommendations` have been collected. -/
def optimizeRecs (o : Optimizer) (now : ℤ) : List Recommendation :=
  o.popularity.foldl
    (fun recs entry =>
      match modelRec o now entry with
      | none => recs
      | some r =>
          if (recs.length : ℤ) < o.cfg.maxRecommendations then recs ++ [r]
          else recs)
    []

/-- One ring-buffer write of a recommendation. -/
def storeOne (o : Optimizer) (r : Recommendation) : Optimizer :=
  if o.recIdx + 1 ≥ o.recCap then
    { o with recommendations := o.recommendations.set o.recIdx r,
             recIdx := 0, recFull := true }
  else
    { o with recommendations := o.recommendations.set o.recIdx r,
             recIdx := o.recIdx + 1 }

/-- Store all emitted recommendations in the ring buffer. -/
def storeRecs (o : Optimizer) (recs : List Recommendation) : Optimizer :=
  recs.foldl storeOne o

/-- `Optimize`: stamp the cycle, build the recommendation list, store it in
the ring buffer, and return it. -/
def optimize (o : Optimizer) (now : ℤ) : List Recommendation × Optimizer :=
  let o' := { o with lastOptimization := now,
                     optimizationCount := o.optimizationCount + 1 }
  let recs := optimizeRecs o' now
  (recs, storeRecs o' recs)

end Intelligence

namespace Intelligence

/-- In a list sorted by a reflexive transitive relation, every element
relates to the last element. -/
theorem sorted_all_rel_getLast {α : Type} {r : α → α → Prop}
    (hrefl : ∀ a, r a a) :
    ∀ (l : List α) (h : l ≠ []), l.Sorted r → ∀ x ∈ l, r x (l.getLast h) := by
  intro l
  induction l with
  | nil => intro h; exact absurd rfl h
  | cons a t ih =>
    intro _ hsort x hx
    cases t with
    | nil =>
      have : x = a := by simpa using hx
      subst this
      exact hrefl x
    | cons b t' =>
      rw [List.getLast_cons (by simp)]
      rcases List.mem_cons.mp hx with rfl | hx'
      · exact (List.pairwise_cons.mp hsort).1 _
          (List.getLast_mem (l := b :: t') (by simp))
      · exact ih (by simp) (List.pairwise_cons.mp hsort).2 x hx'

/-- The head of the descending sort attains the maximum affinity and the
last element the minimum; both belong to the candidate list. -/
theorem sorted_head_last_bounds (cands : List (String × ℚ)) (hne : cands ≠ []) :
    (List.insertionSort descBySnd cands).headD ("", 0) ∈ cands ∧
    (List.insertionSort descBySnd cands).getLastD ("", 0) ∈ cands ∧
    ∀ c ∈ cands,
      ((List.insertionSort descBySnd cands).getLastD ("", 0)).2 ≤ c.2 ∧
      c.2 ≤ ((List.insertionSort descBySnd cands).headD ("", 0)).2 := by
  have hperm := List.perm_insertionSort descBySnd cands
  have hsort := List.sorted_insertionSort descBySnd cands
  have hsne : List.insertionSort descBySnd cands ≠ [] := by
    intro h0
    rw [h0] at hperm
    exact hne (hperm.symm.eq_nil ▸ rfl)
  obtain ⟨s0, stail, hs⟩ := List.exists_cons_of_ne_nil hsne
  have hheadD : (List.insertionSort descBySnd cands).headD ("", 0) = s0 := by
    rw [hs]; rfl
  have hlastD : (List.insertionSort descBySnd cands).getLastD ("", 0) =
      (List.insertionSort descBySnd cands).getLast hsne := by
    rw [List.getLastD_eq_getLast?, List.getLast?_eq_getLast _ hsne]
    rfl
  refine ⟨?_, ?_, ?_⟩
  · rw [hheadD]
    exact hperm.mem_iff.mp (by rw [hs]; exact List.mem_cons_self _ _)
  · rw [hlastD]
    exact hperm.mem_iff.mp (List.getLast_mem hsne)
  · intro c hc
    have hcs : c ∈ List.insertionSort descBySnd cands := hperm.mem_iff.mpr hc
    constructor
    · rw [hlastD]
      exact @sorted_all_rel_getLast _ descBySnd (fun a => le_refl a.2) _ hsne
        hsort c hcs
    · rw [hheadD]
      rw [hs] at hcs hsort
      rcases List.mem_cons.mp hcs with rfl | hct
      · exact le_refl _
      · exact (List.pairwise_cons.mp hsort).1 c hct

end Intelligence

namespace Intelligence

/-- Soundness of the per-model loop body: an emitted recommendation is a
Move for a sufficiently popular model, its score is the best-to-worst
affinity gap and exceeds 0.3, its target node attains the maximum affinity
among the model's candidates and its source node the minimum. -/
theorem modelRec_sound (o : Optimizer) (now : ℤ) (entry : String × ModelStats)
    (r : Recommendation) (h : modelRec o now entry = some r) :
    entry.2.totalReqs ≥ o.cfg.minRequestsForPlacement ∧
    r.type = RecommendationType.move ∧
    r.modelName = entry.1 ∧
    r.createdAt = now ∧
    r.score > 3/10 ∧
    ∃ sMax sMin : ℚ,
      (r.toNode, sMax) ∈ candidatesFor o entry.1 ∧
      (r.fromNode, sMin) ∈ candidatesFor o entry.1 ∧
      r.score = sMax - sMin ∧
      ∀ c ∈ candidatesFor o entry.1, sMin ≤ c.2 ∧ c.2 ≤ sMax := by
  simp only [modelRec] at h
  split_ifs at h with h1 h2 h3
  · have hne : candidatesFor o entry.1 ≠ [] := by
      intro h0
      rw [h0] at h2
      simp at h2
    obtain ⟨hhead, hlast, hbounds⟩ := sorted_head_last_bounds _ hne
    have hr := Option.some_injective _ h
    subst hr
    refine ⟨not_lt.mp h1, rfl, rfl, rfl, h3, ?_⟩
    refine ⟨((List.insertionSort descBySnd (candidatesFor o entry.1)).headD ("", 0)).2,
      ((List.insertionSort descBySnd (candidatesFor o entry.1)).getLastD ("", 0)).2,
      ?_, ?_, rfl, hbounds⟩
    · exact hhead
    · exact hlast

/-- Completeness of the per-model loop body: a sufficiently popular model
two of whose candidates have an affinity gap above 0.3 always yields a
recommendation. -/
theorem modelRec_emits (o : Optimizer) (now : ℤ) (entry : String × ModelStats)
    (hreq : entry.2.totalReqs ≥ o.cfg.minRequestsForPlacement)
    (c1 c2 : String × ℚ)
    (hc1 : c1 ∈ candidatesFor o entry.1) (hc2 : c2 ∈ candidatesFor o entry.1)
    (hgap : c1.2 - c2.2 > 3/10) :
    ∃ r, modelRec o now entry = some r := by
  have hne : candidatesFor o entry.1 ≠ [] := fun h0 => by
    rw [h0] at hc1
    cases hc1
  have hlen : ¬ (candidatesFor o entry.1).length < 2 := by
    intro hlt
    rcases hcc : candidatesFor o entry.1 with _ | ⟨a, t⟩
    · rw [hcc] at hc1
      cases hc1
    · rcases t with _ | ⟨b, t'⟩
      · rw [hcc] at hc1 hc2
        have e1 : c1 = a := by simpa using hc1
        have e2 : c2 = a := by simpa using hc2
        rw [e1, e2] at hgap
        simp at hgap
        linarith
      · rw [hcc] at hlt
        simp at hlt
        omega
  obtain ⟨hhead, hlast, hbounds⟩ := sorted_head_last_bounds _ hne
  have hgap2 :
      ((List.insertionSort descBySnd (candidatesFor o entry.1)).headD ("", 0)).2 -
        ((List.insertionSort descBySnd (candidatesFor o entry.1)).getLastD ("", 0)).2 >
        3/10 := by
    have hb1 := (hbounds c1 hc1).2
    have hb2 := (hbounds c2 hc2).1
    linarith
  simp only [modelRec]
  rw [if_neg (not_lt.mpr hreq), if_neg hlen, if_pos hgap2]
  exact ⟨_, rfl⟩

end Intelligence

namespace Intelligence

/-- Once the cap is reached the recommendation fold appends nothing more. -/
theorem optimizeRecs_foldl_full (o : Optimizer) (now : ℤ) :
    ∀ (l : List (String × ModelStats)) (acc : List Recommendation),
      o.cfg.maxRecommendations.toNat ≤ acc.length →
      l.foldl
        (fun recs entry =>
          match modelRec o now entry with
          | none => recs
          | some r =>
              if (recs.length : ℤ) < o.cfg.maxRecommendations then recs ++ [r]
              else recs)
        acc = acc := by
  intro l
  induction l with
  | nil => intro acc _; rfl
  | cons e rest ih =>
    intro acc hacc
    rcases hm : modelRec o now e with _ | r
    · show rest.foldl _ (match modelRec o now e with
        | none => acc
        | some r => if (acc.length : ℤ) < o.cfg.maxRecommendations
            then acc ++ [r] else acc) = acc
      rw [hm]
      exact ih acc hacc
    · show rest.foldl _ (match modelRec o now e with
        | none => acc
        | some r => if (acc.length : ℤ) < o.cfg.maxRecommendations
            then acc ++ [r] else acc) = acc
      rw [hm]
      dsimp only
      rw [if_neg (by omega)]
      exact ih acc hacc

/-- The recommendation fold produces exactly the capped prefix of the
per-model recommendations. -/
theorem optimizeRecs_foldl_take (o : Optimizer) (now : ℤ) :
    ∀ (l : List (String × ModelStats)) (acc : List Recommendation),
      acc.length ≤ o.cfg.maxRecommendations.toNat →
      l.foldl
        (fun recs entry =>
          match modelRec o now entry with
          | none => recs
          | some r =>
              if (recs.length : ℤ) < o.cfg.maxRecommendations then recs ++ [r]
              else recs)
        acc =
        acc ++ (l.filterMap (modelRec o now)).take
          (o.cfg.maxRecommendations.toNat - acc.length) := by
  intro l
  induction l with
  | nil => intro acc _; simp
  | cons e rest ih =>
    intro acc hacc
    rcases hm : modelRec o now e with _ | r
    · show rest.foldl _ (match modelRec o now e with
        | none => acc
        | some r => if (acc.length : ℤ) < o.cfg.maxRecommendations
            then acc ++ [r] else acc) = _
      rw [hm, ih acc hacc, List.filterMap_cons_none hm]
    · show rest.foldl _ (match modelRec o now e with
        | none => acc
        | some r => if (acc.length : ℤ) < o.cfg.maxRecommendations
            then acc ++ [r] else acc) = _
      rw [hm, List.filterMap_cons_some hm]
      dsimp only
      by_cases hroom : (acc.length : ℤ) < o.cfg.maxRecommendations
      · rw [if_pos hroom]
        have hlt : acc.length < o.cfg.maxRecommendations.toNat := by omega
        rw [ih (acc ++ [r]) (by simp; omega)]
        have harith : o.cfg.maxRecommendations.toNat - acc.length =
            (o.cfg.maxRecommendations.toNat - (acc ++ [r]).length) + 1 := by
          simp
          omega
        rw [harith, List.take_succ_cons]
        simp
      · rw [if_neg hroom]
        have hfull : o.cfg.maxRecommendations.toNat ≤ acc.length := by omega
        rw [optimizeRecs_foldl_full o now rest acc hfull]
        have : o.cfg.maxRecommendations.toNat - acc.length = 0 := by omega
        rw [this]
        simp

/-- `optimizeRecs` is the capped prefix of the per-model recommendations. -/
theorem optimizeRecs_eq_take (o : Optimizer) (now : ℤ) :
    optimizeRecs o now =
      (o.popularity.filterMap (modelRec o now)).take
        o.cfg.maxRecommendations.toNat := by
  have h := optimizeRecs_foldl_take o now o.popularity [] (by simp)
  simpa [optimizeRecs] using h

end Intelligence

namespace Intelligence

/-- Shifting an in-range index by `0 < m < cap` positions modulo the
capacity never returns to the same slot. -/
theorem mod_shift_ne (cap i m : ℕ) (hi : i < cap) (hm : 0 < m) (hmc : m < cap) :
    (i + m) % cap ≠ i := by
  rcases Nat.lt_or_ge (i + m) cap with h | h
  · rw [Nat.mod_eq_of_lt h]
    omega
  · have h2 : i + m - cap < cap := by omega
    have heq : (i + m) % cap = i + m - cap := by
      rw [Nat.mod_eq_sub_mod h, Nat.mod_eq_of_lt h2]
    omega

/-- Fields of one ring-buffer write. -/
theorem storeOne_fields (o : Optimizer) (r : Recommendation)
    (hidx : o.recIdx < o.recCap) :
    (storeOne o r).recommendations = o.recommendations.set o.recIdx r ∧
    (storeOne o r).recIdx = (o.recIdx + 1) % o.recCap ∧
    (storeOne o r).recCap = o.recCap ∧
    (storeOne o r).recIdx < o.recCap := by
  unfold storeOne
  split_ifs with h
  · have : o.recIdx + 1 = o.recCap := by omega
    refine ⟨rfl, ?_, rfl, by dsimp only; omega⟩
    dsimp only
    rw [this, Nat.mod_self]
  · refine ⟨rfl, ?_, rfl, by dsimp only; omega⟩
    dsimp only
    rw [Nat.mod_eq_of_lt (by omega)]

/-- A run of ring-buffer writes that never touches slot `p` leaves slot `p`
unchanged. -/
theorem storeRecs_preserves (p : ℕ) :
    ∀ (recs : List Recommendation) (o : Optimizer),
      o.recIdx < o.recCap →
      (∀ j, j < recs.length → (o.recIdx + j) % o.recCap ≠ p) →
      (storeRecs o recs).recommendations[p]? = o.recommendations[p]? := by
  intro recs
  induction recs with
  | nil => intro o _ _; rfl
  | cons r rest ih =>
    intro o hidx hnohit
    obtain ⟨hf1, hf2, hf3, hf4⟩ := storeOne_fields o r hidx
    have hstep : storeRecs o (r :: rest) = storeRecs (storeOne o r) rest := rfl
    rw [hstep]
    rw [ih (storeOne o r) (by rw [hf3]; exact hf4)
      (by
        intro j hj
        rw [hf2, hf3, Nat.mod_add_mod]
        have := hnohit (j + 1) (by simp; omega)
        have harr : o.recIdx + 1 + j = o.recIdx + (j + 1) := by omega
        rw [harr]
        exact this)]
    rw [hf1]
    have hp0 := hnohit 0 (by simp)
    rw [Nat.add_zero, Nat.mod_eq_of_lt hidx] at hp0
    rw [List.getElem?_set_ne hp0]

/-- After writing at most `recCap` recommendations, every one of them is in
the buffer. -/
theorem storeRecs_mem :
    ∀ (recs : List Recommendation) (o : Optimizer),
      o.recommendations.length = o.recCap →
      o.recIdx < o.recCap →
      recs.length ≤ o.recCap →
      ∀ r ∈ recs, r ∈ (storeRecs o recs).recommendations := by
  intro recs
  induction recs with
  | nil => intro o _ _ _ r hr; cases hr
  | cons q rest ih =>
    intro o hlen hidx hcap r hr
    obtain ⟨hf1, hf2, hf3, hf4⟩ := storeOne_fields o q hidx
    have hstep : storeRecs o (q :: rest) = storeRecs (storeOne o q) rest := rfl
    have hlen1 : (storeOne o q).recommendations.length = (storeOne o q).recCap := by
      rw [hf1, hf3, List.length_set]
      exact hlen
    rcases List.mem_cons.mp hr with rfl | hr'
    · have hkeep : (storeRecs (storeOne o r) rest).recommendations[o.recIdx]? =
          (storeOne o r).recommendations[o.recIdx]? := by
        refine storeRecs_preserves o.recIdx rest (storeOne o r)
          (by rw [hf3]; exact hf4) ?_
        intro j hj
        rw [hf2, hf3, Nat.mod_add_mod]
        have harr : o.recIdx + 1 + j = o.recIdx + (1 + j) := by omega
        rw [harr]
        apply mod_shift_ne o.recCap o.recIdx (1 + j) hidx (by omega)
        have hrl : rest.length + 1 ≤ o.recCap := by simpa using hcap
        omega
      have hget : (storeOne o r).recommendations[o.recIdx]? = some r := by
        rw [hf1]
        exact List.getElem?_set_self (by rw [hlen]; exact hidx)
      rw [hstep]
      exact List.getElem?_mem (hkeep.trans hget)
    · rw [hstep]
      exact ih (storeOne o q) hlen1 (by rw [hf3]; exact hf4)
        (by
          rw [hf3]
          have hrl : rest.length + 1 ≤ o.recCap := by simpa using hcap
          omega)
        r hr'

end Intelligence

/-- **C7** — `Optimize` considers exactly the models with
`total_reqs ≥ MinRequestsForPlacement`; the emitted list is the per-model
recommendations capped at `MaxRecommendations`; every emitted recommendation
is a Move whose score is the gap between the best and worst node affinity
for its model, exceeds 0.3, goes to a node of maximal affinity and comes
from a node of minimal affinity; a qualifying model with an affinity gap
above 0.3 is always emitted when the cap leaves room; and the emitted
recommendations are all stored in the ring buffer (whenever a cycle emits at
most the ring capacity). -/
theorem optimize_move_recommendations (o : Intelligence.Optimizer) (now : ℤ) :
    ((Intelligence.optimize o now).1.length : ℤ) ≤
      max o.cfg.maxRecommendations 0 ∧
    (Intelligence.optimize o now).1 =
      (o.popularity.filterMap (Intelligence.modelRec o now)).take
        o.cfg.maxRecommendations.toNat ∧
    (∀ r ∈ (Intelligence.optimize o now).1,
      ∃ entry ∈ o.popularity,
        Intelligence.modelRec o now entry = some r ∧
        entry.2.totalReqs ≥ o.cfg.minRequestsForPlacement ∧
        r.type = Intelligence.RecommendationType.move ∧
        r.modelName = entry.1 ∧
        r.score > 3/10 ∧
        ∃ sMax sMin : ℚ,
          (r.toNode, sMax) ∈ Intelligence.candidatesFor o entry.1 ∧
          (r.fromNode, sMin) ∈ Intelligence.candidatesFor o entry.1 ∧
          r.score = sMax - sMin ∧
          ∀ c ∈ Intelligence.candidatesFor o entry.1, sMin ≤ c.2 ∧ c.2 ≤ sMax) ∧
    (∀ entry ∈ o.popularity,
      entry.2.totalReqs ≥ o.cfg.minRequestsForPlacement →
      (∃ c1 ∈ Intelligence.candidatesFor o entry.1,
        ∃ c2 ∈ Intelligence.candidatesFor o entry.1, c1.2 - c2.2 > 3/10) →
      (o.popularity.filterMap (Intelligence.modelRec o now)).length ≤
        o.cfg.maxRecommendations.toNat →
      ∃ r ∈ (Intelligence.optimize o now).1, r.modelName = entry.1) ∧
    (o.recommendations.length = o.recCap → o.recIdx < o.recCap →
      (Intelligence.optimize o now).1.length ≤ o.recCap →
      ∀ r ∈ (Intelligence.optimize o now).1,
        r ∈ (Intelligence.optimize o now).2.recommendations) := by
  have hopt1 : (Intelligence.optimize o now).1 = Intelligence.optimizeRecs o now := rfl
  have htake := Intelligence.optimizeRecs_eq_take o now
  refine ⟨?_, by rw [hopt1, htake], ?_, ?_, ?_⟩
  · rw [hopt1, htake]
    have h1 := List.length_take_le o.cfg.maxRecommendations.toNat
      (o.popularity.filterMap (Intelligence.modelRec o now))
    omega
  · intro r hr
    rw [hopt1, htake] at hr
    have hr2 : r ∈ o.popularity.filterMap (Intelligence.modelRec o now) :=
      List.mem_of_mem_take hr
    obtain ⟨entry, hentry, hsome⟩ := List.mem_filterMap.mp hr2
    obtain ⟨hs1, hs2, hs3, _, hs5, hs6⟩ :=
      Intelligence.modelRec_sound o now entry r hsome
    exact ⟨entry, hentry, hsome, hs1, hs2, hs3, hs5, hs6⟩
  · intro entry hentry hreq hgap hroom
    obtain ⟨c1, hc1, c2, hc2, hg⟩ := hgap
    obtain ⟨r, hsome⟩ :=
      Intelligence.modelRec_emits o now entry hreq c1 c2 hc1 hc2 hg
    have hmem : r ∈ o.popularity.filterMap (Intelligence.modelRec o now) :=
      List.mem_filterMap.mpr ⟨entry, hentry, hsome⟩
    refine ⟨r, ?_, (Intelligence.modelRec_sound o now entry r hsome).2.2.1⟩
    rw [hopt1, htake, List.take_of_length_le hroom]
    exact hmem
  · intro hlen hidx hcap r hr
    have hopt2 : (Intelligence.optimize o now).2 =
        Intelligence.storeRecs
          { o with lastOptimization := now,
                   optimizationCount := o.optimizationCount + 1 }
          (Intelligence.optimize o now).1 := rfl
    rw [hopt2]
    exact Intelligence.storeRecs_mem (Intelligence.optimize o now).1
      { o with lastOptimization := now,
               optimizationCount := o.optimizationCount + 1 }
      hlen hidx hcap r hr

/-- Node-A stats for the `optimize_move_recommendations` witness: all cache
hits, full request share, perfect VRAM fit. -/
def c7StatsA : Intelligence.AffinityStats := ⟨20, 20, 0, 0, 0, 0⟩

/-- Node-B stats for the witness: all cache misses, half the requests, no
VRAM headroom. -/
def c7StatsB : Intelligence.AffinityStats := ⟨10, 0, 10, 0, 0, 1⟩

/-- Popularity entry for the witness model. -/
def c7Model : Intelligence.ModelStats := ⟨20, 20, 0, 0, 0⟩

/-- Concrete optimizer state for the `optimize_move_recommendations`
witness. -/
def c7Opt : Intelligence.Optimizer :=
  { cfg := ⟨30, 604800000000000, 10, 50, 100, 10000⟩
    popularity := [("llama", c7Model)]
    affinities := [("A", [("llama", c7StatsA)]), ("B", [("llama", c7StatsB)])]
    recommendations :=
      List.replicate 4 ⟨Intelligence.RecommendationType.place, "", "", "", "", 0, 0⟩
    recIdx := 0
    recCap := 4
    recFull := false
    lastOptimization := 0
    optimizationCount := 0 }

/-- Witness for `optimize_move_recommendations`: the model "llama" sits on
node A with affinity 0.7 and node B with affinity 0.1, so a Move
recommendation for it is emitted. -/
theorem optimize_move_recommendations_witness :
    ∃ r ∈ (Intelligence.optimize c7Opt 0).1, r.modelName = "llama" := by
  have hcand : Intelligence.candidatesFor c7Opt "llama" =
      [("A", 7/10), ("B", 1/10)] := by
    norm_num [Intelligence.candidatesFor, Intelligence.modelMaxes,
      Intelligence.maxStep, Intelligence.lookupAff, Intelligence.computeAffinity,
      c7Opt, c7StatsA, c7StatsB, List.filterMap_cons, List.find?]
  refine (optimize_move_recommendations c7Opt 0).2.2.2.1 ("llama", c7Model)
    (by simp [c7Opt]) (by norm_num [c7Opt, c7Model]) ?_ ?_
  · refine ⟨("A", 7/10), ?_, ("B", 1/10), ?_, by norm_num⟩
    · rw [hcand]; simp
    · rw [hcand]; simp
  · have hle := List.length_filterMap_le
      (Intelligence.modelRec c7Opt 0) c7Opt.popularity
    have hpop : c7Opt.popularity.length = 1 := rfl
    have hnat : (c7Opt.cfg.maxRecommendations).toNat = 50 := rfl
    omega

/-! ## Priority queue (min-heap with age boost) — dsa package
(src/unnamed/part_001) -/

namespace Dsa

/-- A priority-queue element (`HeapItem`).  The opaque payload (`Value any`)
is omitted: it never influences ordering or heap structure. -/
structure HeapItem where
  key : String
  priority : ℤ
  submittedAt : ℤ
deriving DecidableEq, Repr

instance : Inhabited HeapItem := ⟨⟨"", 0, 0⟩⟩

/-- Starvation-prevention configuration (`PriorityQueueConfig`), durations in
nanoseconds. -/
structure PriorityQueueConfig where
  boostInterval : ℤ
  maxBoost : ℤ
deriving DecidableEq, Repr

/-- `effectivePriority`: age-boosted priority, boost capped at `MaxBoost`,
result clamped below at 0.  Go duration division truncates toward zero
(`Int.tdiv`). -/
def effectivePriority (cfg : PriorityQueueConfig) (now : ℤ) (item : HeapItem) : ℤ :=
  if cfg.boostInterval ≤ 0 then item.priority
  else
    let age := now - item.submittedAt
    let boost := Int.tdiv age cfg.boostInterval
    let boost := if boost > cfg.maxBoost then cfg.maxBoost else boost
    let eff := item.priority - boost
    if eff < 0 then 0 else eff

/-- `less`: effective priority first, then FIFO by older `submittedAt`. -/
def less (cfg : PriorityQueueConfig) (now : ℤ) (a b : HeapItem) : Bool :=
  let pa := effectivePriority cfg now a
  let pb := effectivePriority cfg now b
  if pa ≠ pb then decide (pa < pb) else decide (a.submittedAt < b.submittedAt)

/-- Swap two positions of the heap slice. -/
def swap (l : List HeapItem) (i j : ℕ) : List HeapItem :=
  (l.set i (l.getD j default)).set j (l.getD i default)

/-- `siftUp`: restore the heap property after insertion. -/
def siftUp (cfg : PriorityQueueConfig) (now : ℤ) (l : List HeapItem) (idx : ℕ) :
    List HeapItem :=
  if idx = 0 then l
  else
    let parent := (idx - 1) / 2
    if less cfg now (l.getD idx default) (l.getD parent default) then
      siftUp cfg now (swap l idx parent) parent
    else l
termination_by idx
decreasing_by
  omega

/-- The smallest-of-three selection in `siftDown`'s loop body: compare the
left child, then the right child, against the current smallest. -/
def smallestIdx (cfg : PriorityQueueConfig) (now : ℤ) (l : List HeapItem)
    (idx : ℕ) : ℕ :=
  let n := l.length
  let left := 2 * idx + 1
  let right := 2 * idx + 2
  let s1 := if left < n ∧ less cfg now (l.getD left default) (l.getD idx default)
    then left else idx
  if right < n ∧ less cfg now (l.getD right default) (l.getD s1 default)
    then right else s1

/-- The selected index is the current one, or a strictly deeper in-range
child. -/
theorem smallestIdx_bounds (cfg : PriorityQueueConfig) (now : ℤ)
    (l : List HeapItem) (idx : ℕ) :
    smallestIdx cfg now l idx = idx ∨
    (idx < smallestIdx cfg now l idx ∧ smallestIdx cfg now l idx < l.length) := by
  simp only [smallestIdx]
  split_ifs <;> omega

/-- `siftDown`: restore the heap property after extraction. -/
def siftDown (cfg : PriorityQueueConfig) (now : ℤ) (l : List HeapItem) (idx : ℕ) :
    List HeapItem :=
  if smallestIdx cfg now l idx = idx then l
  else siftDown cfg now (swap l idx (smallestIdx cfg now l idx))
    (smallestIdx cfg now l idx)
termination_by l.length - idx
decreasing_by
  rename_i hne
  rcases smallestIdx_bounds cfg now l idx with h | ⟨h1, h2⟩
  · exact absurd h hne
  · simp only [swap, List.length_set]
    omega

/-- `Push`: default the submission time from the clock, append, sift up. -/
def push (cfg : PriorityQueueConfig) (now : ℤ) (pq : List HeapItem)
    (item : HeapItem) : List HeapItem :=
  let item := if item.submittedAt = 0 then { item with submittedAt := now }
    else item
  siftUp cfg now (pq ++ [item]) ((pq ++ [item]).length - 1)

/-- `Pop`: return the root, move the last element to the root, shrink, sift
down. -/
def pop (cfg : PriorityQueueConfig) (now : ℤ) (pq : List HeapItem) :
    Option HeapItem × List HeapItem :=
  if pq = [] then (none, pq)
  else
    let top := pq.getD 0 default
    let last := pq.length - 1
    let rest := (pq.set 0 (pq.getD last default)).take last
    let rest := if 0 < rest.length then siftDown cfg now rest 0 else rest
    (some top, rest)

end Dsa

namespace Dsa

theorem swap_length (l : List HeapItem) (i j : ℕ) :
    (swap l i j).length = l.length := by
  simp [swap]

theorem siftUp_length (cfg : PriorityQueueConfig) (now : ℤ) :
    ∀ (idx : ℕ) (l : List HeapItem), (siftUp cfg now l idx).length = l.length := by
  intro idx
  induction idx using Nat.strong_induction_on with
  | _ idx ih =>
    intro l
    rw [siftUp]
    dsimp only
    split_ifs with h1 h2
    · rfl
    · rw [ih ((idx - 1) / 2) (by omega) (swap l idx ((idx - 1) / 2))]
      exact swap_length l idx ((idx - 1) / 2)
    · rfl

theorem siftDown_length (cfg : PriorityQueueConfig) (now : ℤ) :
    ∀ (fuel : ℕ) (l : List HeapItem) (idx : ℕ), l.length - idx ≤ fuel →
      (siftDown cfg now l idx).length = l.length := by
  intro fuel
  induction fuel with
  | zero =>
    intro l idx hf
    rw [siftDown]
    rcases smallestIdx_bounds cfg now l idx with h | ⟨h1, h2⟩
    · rw [if_pos h]
    · omega
  | succ fuel ih =>
    intro l idx hf
    rw [siftDown]
    rcases smallestIdx_bounds cfg now l idx with h | ⟨h1, h2⟩
    · rw [if_pos h]
    · split_ifs with h0
      · rfl
      · rw [ih (swap l idx (smallestIdx cfg now l idx)) (smallestIdx cfg now l idx)
          (by rw [swap_length]; omega)]
        exact swap_length _ _ _

/-- `Pop` on a non-empty queue shrinks the heap by one element. -/
theorem pop_length (cfg : PriorityQueueConfig) (now : ℤ) (pq : List HeapItem)
    (h : pq ≠ []) : (pop cfg now pq).2.length = pq.length - 1 := by
  have hlen : 0 < pq.length := List.length_pos.mpr h
  simp only [pop, if_neg h]
  have htake : ((pq.set 0 (pq.getD (pq.length - 1) default)).take
      (pq.length - 1)).length = pq.length - 1 := by
    simp
  split_ifs with h0
  · rw [siftDown_length cfg now pq.length
      ((pq.set 0 (pq.getD (pq.length - 1) default)).take (pq.length - 1)) 0
      (by rw [htake]; omega), htake]
  · exact htake

/-- Drain the queue: repeatedly `Pop` until empty, collecting the returned
items in order. -/
def popAll (cfg : PriorityQueueConfig) (now : ℤ) (pq : List HeapItem) :
    List HeapItem :=
  if h : pq = [] then []
  else
    ((pop cfg now pq).1.getD default) :: popAll cfg now (pop cfg now pq).2
termination_by pq.length
decreasing_by
  rw [pop_length cfg now pq h]
  have : 0 < pq.length := List.length_pos.mpr h
  omega

/-- Push a whole list of items in order into an initially empty queue. -/
def pushAll (cfg : PriorityQueueConfig) (now : ℤ) (items : List HeapItem) :
    List HeapItem :=
  items.foldl (push cfg now) []

end Dsa

namespace Dsa

/-- The comparison key of an item at a given clock: effective priority, then
submission time. -/
def key (cfg : PriorityQueueConfig) (now : ℤ) (it : HeapItem) : ℤ × ℤ :=
  (effectivePriority cfg now it, it.submittedAt)

/-- Strict lexicographic order on comparison keys. -/
def keyLt (x y : ℤ × ℤ) : Prop := x.1 < y.1 ∨ (x.1 = y.1 ∧ x.2 < y.2)

/-- Lexicographic order on comparison keys. -/
def keyLe (x y : ℤ × ℤ) : Prop := x.1 < y.1 ∨ (x.1 = y.1 ∧ x.2 ≤ y.2)

theorem keyLe_refl (x : ℤ × ℤ) : keyLe x x := by
  unfold keyLe
  omega

theorem keyLe_trans {x y z : ℤ × ℤ} (h1 : keyLe x y) (h2 : keyLe y z) :
    keyLe x z := by
  unfold keyLe at h1 h2 ⊢
  omega

theorem keyLe_of_not_keyLt {x y : ℤ × ℤ} (h : ¬ keyLt x y) : keyLe y x := by
  unfold keyLt at h
  unfold keyLe
  omega

theorem keyLe_of_keyLt {x y : ℤ × ℤ} (h : keyLt x y) : keyLe x y := by
  unfold keyLt at h
  unfold keyLe
  omega

theorem keyLt_of_keyLt_of_keyLe {x y z : ℤ × ℤ} (h1 : keyLt x y)
    (h2 : keyLe y z) : keyLt x z := by
  unfold keyLt at h1 ⊢
  unfold keyLe at h2
  omega

/-- `less` decides the strict lexicographic key order. -/
theorem less_iff (cfg : PriorityQueueConfig) (now : ℤ) (a b : HeapItem) :
    less cfg now a b = true ↔ keyLt (key cfg now a) (key cfg now b) := by
  unfold less key keyLt
  dsimp only
  by_cases h : effectivePriority cfg now a = effectivePriority cfg now b
  · simp [h]
  · simp [h]

theorem getD_swap_fst (l : List HeapItem) (i j : ℕ) (hi : i < l.length)
    (hij : i ≠ j) : (swap l i j).getD i default = l.getD j default := by
  unfold swap
  rw [List.getD_eq_getElem?_getD, List.getElem?_set_ne (fun h => hij h.symm),
    List.getElem?_set_self (by simpa using hi)]
  rfl

theorem getD_swap_snd (l : List HeapItem) (i j : ℕ) (hj : j < l.length) :
    (swap l i j).getD j default = l.getD i default := by
  unfold swap
  rw [List.getD_eq_getElem?_getD, List.getElem?_set_self (by simpa using hj)]
  rfl

theorem getD_swap_other (l : List HeapItem) (i j k : ℕ) (hik : k ≠ i)
    (hjk : k ≠ j) : (swap l i j).getD k default = l.getD k default := by
  unfold swap
  rw [List.getD_eq_getElem?_getD, List.getElem?_set_ne (fun h => hjk h.symm),
    List.getElem?_set_ne (fun h => hik h.symm), List.getD_eq_getElem?_getD]

theorem getD_mem (l : List HeapItem) (i : ℕ) (hi : i < l.length) :
    l.getD i default ∈ l := by
  rw [List.getD_eq_getElem?_getD, List.getElem?_eq_getElem hi]
  exact List.getElem_mem hi

theorem mem_swap (l : List HeapItem) (i j : ℕ) (hi : i < l.length)
    (hj : j < l.length) : ∀ x ∈ swap l i j, x ∈ l := by
  intro x hx
  unfold swap at hx
  rcases List.mem_or_eq_of_mem_set hx with hx1 | rfl
  · rcases List.mem_or_eq_of_mem_set hx1 with hx2 | rfl
    · exact hx2
    · exact getD_mem l j hj
  · exact getD_mem l i hi

/-- The binary min-heap invariant on the array encoding. -/
def isMinHeap (cfg : PriorityQueueConfig) (now : ℤ) (l : List HeapItem) : Prop :=
  ∀ i, 0 < i → i < l.length →
    keyLe (key cfg now (l.getD ((i - 1) / 2) default))
      (key cfg now (l.getD i default))

/-- In a min-heap the root key is minimal. -/
theorem isMinHeap_root_le (cfg : PriorityQueueConfig) (now : ℤ)
    (l : List HeapItem) (h : isMinHeap cfg now l) :
    ∀ i, i < l.length →
      keyLe (key cfg now (l.getD 0 default)) (key cfg now (l.getD i default)) := by
  intro i
  induction i using Nat.strong_induction_on with
  | _ i ih =>
    intro hi
    rcases Nat.eq_zero_or_pos i with rfl | hpos
    · exact keyLe_refl _
    · exact keyLe_trans (ih ((i - 1) / 2) (by omega) (by omega)) (h i hpos hi)

end Dsa

namespace Dsa

/-- `siftUp` restores the heap invariant: if every parent-child edge except
possibly the one into `idx` is ordered, and `idx`'s children (if any) are
already bounded below by `idx`'s parent, then the sifted array is a
min-heap. -/
theorem siftUp_heap (cfg : PriorityQueueConfig) (now : ℤ) :
    ∀ (idx : ℕ) (l : List HeapItem),
      idx < l.length →
      (∀ i, 0 < i → i < l.length → i ≠ idx →
        keyLe (key cfg now (l.getD ((i - 1) / 2) default))
          (key cfg now (l.getD i default))) →
      (0 < idx → ∀ c, 0 < c → c < l.length → (c - 1) / 2 = idx →
        keyLe (key cfg now (l.getD ((idx - 1) / 2) default))
          (key cfg now (l.getD c default))) →
      isMinHeap cfg now (siftUp cfg now l idx) := by
  intro idx
  induction idx using Nat.strong_induction_on with
  | _ idx ih =>
    intro l hlen ha hb
    rw [siftUp]
    dsimp only
    split_ifs with h0 hlt
    · subst h0
      intro i hi0 hilen
      exact ha i hi0 hilen (by omega)
    · have hplt : (idx - 1) / 2 < idx := by omega
      have hswlen : (swap l idx ((idx - 1) / 2)).length = l.length :=
        swap_length _ _ _
      have hklt : keyLt (key cfg now (l.getD idx default))
          (key cfg now (l.getD ((idx - 1) / 2) default)) :=
        (less_iff cfg now _ _).mp hlt
      have hgi : (swap l idx ((idx - 1) / 2)).getD idx default =
          l.getD ((idx - 1) / 2) default :=
        getD_swap_fst l idx _ hlen (by omega)
      have hgp : (swap l idx ((idx - 1) / 2)).getD ((idx - 1) / 2) default =
          l.getD idx default :=
        getD_swap_snd l idx _ (by omega)
      have hgo : ∀ k, k ≠ idx → k ≠ (idx - 1) / 2 →
          (swap l idx ((idx - 1) / 2)).getD k default = l.getD k default :=
        fun k h1 h2 => getD_swap_other l idx _ k h1 h2
      apply ih ((idx - 1) / 2) hplt (swap l idx ((idx - 1) / 2))
        (by rw [hswlen]; omega)
      · intro i hi0 hilen hine
        rw [hswlen] at hilen
        by_cases hiidx : i = idx
        · subst hiidx
          rw [hgi, hgp]
          exact keyLe_of_keyLt hklt
        · by_cases hpi : (i - 1) / 2 = idx
          · have hiparent : i ≠ (idx - 1) / 2 := by omega
            rw [hpi, hgi, hgo i hiidx hiparent]
            exact hb (by omega) i hi0 hilen hpi
          · by_cases hpp : (i - 1) / 2 = (idx - 1) / 2
            · rw [hpp, hgp, hgo i hiidx hine]
              have h2 := ha i hi0 hilen hiidx
              rw [hpp] at h2
              exact keyLe_trans (keyLe_of_keyLt hklt) h2
            · rw [hgo i hiidx hine, hgo ((i - 1) / 2) hpi hpp]
              exact ha i hi0 hilen hiidx
      · intro hppos c hc0 hclen hcp
        rw [hswlen] at hclen
        have hgp_ne1 : ((idx - 1) / 2 - 1) / 2 ≠ idx := by omega
        have hgp_ne2 : ((idx - 1) / 2 - 1) / 2 ≠ (idx - 1) / 2 := by omega
        rw [hgo _ hgp_ne1 hgp_ne2]
        by_cases hcidx : c = idx
        · rw [hcidx, hgi]
          exact ha ((idx - 1) / 2) hppos (by omega) (by omega)
        · have hcparent : c ≠ (idx - 1) / 2 := by omega
          rw [hgo c hcidx hcparent]
          have h1 := ha ((idx - 1) / 2) hppos (by omega) (by omega)
          have h2 := ha c hc0 hclen hcidx
          rw [hcp] at h2
          exact keyLe_trans h1 h2
    · intro i hi0 hilen
      by_cases hiidx : i = idx
      · subst hiidx
        exact keyLe_of_not_keyLt (fun hk => hlt ((less_iff cfg now _ _).mpr hk))
      · exact ha i hi0 hilen hiidx

end Dsa

namespace Dsa

/-- When `smallestIdx` stays put, the current element is no larger than its
in-range children. -/
theorem smallestIdx_eq_spec (cfg : PriorityQueueConfig) (now : ℤ)
    (l : List HeapItem) (idx : ℕ) (h : smallestIdx cfg now l idx = idx) :
    ∀ c, 0 < c → c < l.length → (c - 1) / 2 = idx →
      keyLe (key cfg now (l.getD idx default)) (key cfg now (l.getD c default)) := by
  intro c hc0 hclen hcp
  have hchild : c = 2 * idx + 1 ∨ c = 2 * idx + 2 := by omega
  simp only [smallestIdx] at h
  split_ifs at h with h1 h2 h2
  · omega
  · omega
  · omega
  · push_neg at h1 h2
    rcases hchild with rfl | rfl
    · exact keyLe_of_not_keyLt
        (fun hk => h1 hclen ((less_iff cfg now _ _).mpr hk))
    · exact keyLe_of_not_keyLt
        (fun hk => h2 hclen ((less_iff cfg now _ _).mpr hk))

/-- When `smallestIdx` moves, it moves to an in-range child that is strictly
smaller than the current element and minimal among the in-range children. -/
theorem smallestIdx_ne_spec (cfg : PriorityQueueConfig) (now : ℤ)
    (l : List HeapItem) (idx : ℕ) (h : smallestIdx cfg now l idx ≠ idx) :
    idx < smallestIdx cfg now l idx ∧
    smallestIdx cfg now l idx < l.length ∧
    (smallestIdx cfg now l idx - 1) / 2 = idx ∧
    keyLt (key cfg now (l.getD (smallestIdx cfg now l idx) default))
      (key cfg now (l.getD idx default)) ∧
    ∀ c, 0 < c → c < l.length → (c - 1) / 2 = idx →
      keyLe (key cfg now (l.getD (smallestIdx cfg now l idx) default))
        (key cfg now (l.getD c default)) := by
  simp only [smallestIdx] at h ⊢
  split_ifs at h ⊢ with h1 h2 h2
  · obtain ⟨hln, hll⟩ := h1
    obtain ⟨hrn, hrl⟩ := h2
    have hkl := (less_iff cfg now _ _).mp hll
    have hkr := (less_iff cfg now _ _).mp hrl
    refine ⟨by omega, hrn, by omega, keyLt_of_keyLt_of_keyLe hkr (keyLe_of_keyLt hkl), ?_⟩
    intro c hc0 hclen hcp
    have hchild : c = 2 * idx + 1 ∨ c = 2 * idx + 2 := by omega
    rcases hchild with rfl | rfl
    · exact keyLe_of_keyLt hkr
    · exact keyLe_refl _
  · obtain ⟨hln, hll⟩ := h1
    have hkl := (less_iff cfg now _ _).mp hll
    push_neg at h2
    refine ⟨by omega, hln, by omega, hkl, ?_⟩
    intro c hc0 hclen hcp
    have hchild : c = 2 * idx + 1 ∨ c = 2 * idx + 2 := by omega
    rcases hchild with rfl | rfl
    · exact keyLe_refl _
    · exact keyLe_of_not_keyLt
        (fun hk => h2 hclen ((less_iff cfg now _ _).mpr hk))
  · obtain ⟨hrn, hrl⟩ := h2
    have hkr := (less_iff cfg now _ _).mp hrl
    push_neg at h1
    refine ⟨by omega, hrn, by omega, hkr, ?_⟩
    intro c hc0 hclen hcp
    have hchild : c = 2 * idx + 1 ∨ c = 2 * idx + 2 := by omega
    rcases hchild with rfl | rfl
    · have hle : keyLe (key cfg now (l.getD idx default))
          (key cfg now (l.getD (2 * idx + 1) default)) :=
        keyLe_of_not_keyLt
          (fun hk => h1 hclen ((less_iff cfg now _ _).mpr hk))
      exact keyLe_trans (keyLe_of_keyLt hkr) hle
    · exact keyLe_refl _
  · omega

namespace Dsa

/-- `siftDown` restores the heap invariant: if every parent-child edge whose
parent is not `idx` is ordered, and `idx`'s children (if any) are bounded
below by `idx`'s parent, then the sifted array is a min-heap. -/
theorem siftDown_heap (cfg : PriorityQueueConfig) (now : ℤ) :
    ∀ (fuel : ℕ) (l : List HeapItem) (idx : ℕ), l.length - idx ≤ fuel →
      (∀ i, 0 < i → i < l.length → (i - 1) / 2 ≠ idx →
        keyLe (key cfg now (l.getD ((i - 1) / 2) default))
          (key cfg now (l.getD i default))) →
      (0 < idx → ∀ c, 0 < c → c < l.length → (c - 1) / 2 = idx →
        keyLe (key cfg now (l.getD ((idx - 1) / 2) default))
          (key cfg now (l.getD c default))) →
      isMinHeap cfg now (siftDown cfg now l idx) := by
  intro fuel
  induction fuel with
  | zero =>
    intro l idx hf ha hb
    rw [siftDown]
    rcases eq_or_ne (smallestIdx cfg now l idx) idx with hs | hs
    · rw [if_pos hs]
      intro i hi0 hilen
      exact ha i hi0 hilen (by omega)
    · obtain ⟨hgt, hlen, _, _, _⟩ := smallestIdx_ne_spec cfg now l idx hs
      omega
  | succ fuel ih =>
    intro l idx hf ha hb
    rw [siftDown]
    rcases eq_or_ne (smallestIdx cfg now l idx) idx with hs | hs
    · rw [if_pos hs]
      intro i hi0 hilen
      by_cases hpi : (i - 1) / 2 = idx
      · rw [hpi]
        exact smallestIdx_eq_spec cfg now l idx hs i hi0 hilen hpi
      · exact ha i hi0 hilen hpi
    · rw [if_neg hs]
      obtain ⟨hgt, hslen, hsp, hklt, hmin⟩ := smallestIdx_ne_spec cfg now l idx hs
      have hidxlen : idx < l.length := by omega
      have hswlen : (swap l idx (smallestIdx cfg now l idx)).length = l.length :=
        swap_length _ _ _
      have hgi : (swap l idx (smallestIdx cfg now l idx)).getD idx default =
          l.getD (smallestIdx cfg now l idx) default :=
        getD_swap_fst l idx _ hidxlen (by omega)
      have hgs : (swap l idx (smallestIdx cfg now l idx)).getD
          (smallestIdx cfg now l idx) default = l.getD idx default :=
        getD_swap_snd l idx _ hslen
      have hgo : ∀ k, k ≠ idx → k ≠ smallestIdx cfg now l idx →
          (swap l idx (smallestIdx cfg now l idx)).getD k default =
            l.getD k default :=
        fun k h1 h2 => getD_swap_other l idx _ k h1 h2
      apply ih (swap l idx (smallestIdx cfg now l idx))
        (smallestIdx cfg now l idx) (by rw [hswlen]; omega)
      · intro i hi0 hilen hine
        rw [hswlen] at hilen
        by_cases his : i = smallestIdx cfg now l idx
        · rw [his, hsp, hgi, hgs]
          exact keyLe_of_keyLt hklt
        · by_cases hpi : (i - 1) / 2 = idx
          · have hii : i ≠ idx := by omega
            rw [hpi, hgi, hgo i hii his]
            exact hmin i hi0 hilen hpi
          · by_cases hiidx : i = idx
            · have hpar1 : (i - 1) / 2 ≠ smallestIdx cfg now l idx := hine
              have hpar2 : (idx - 1) / 2 ≠ idx := by omega
              have hpar3 : (idx - 1) / 2 ≠ smallestIdx cfg now l idx := by omega
              rw [hiidx, hgi, hgo ((idx - 1) / 2) hpar2 hpar3]
              have hidx0 : 0 < idx := by omega
              exact hb hidx0 (smallestIdx cfg now l idx) (by omega) hslen hsp
            · rw [hgo i hiidx his, hgo ((i - 1) / 2) hpi hine]
              exact ha i hi0 hilen hpi
      · intro _ c hc0 hclen hcp
        rw [hswlen] at hclen
        have hcne1 : c ≠ idx := by omega
        have hcne2 : c ≠ smallestIdx cfg now l idx := by omega
        rw [hsp, hgi, hgo c hcne1 hcne2]
        have h2 := ha c hc0 hclen (by omega)
        rw [hcp] at h2
        exact h2

theorem siftUp_subset (cfg : PriorityQueueConfig) (now : ℤ) :
    ∀ (idx : ℕ) (l : List HeapItem), idx < l.length →
      ∀ x ∈ siftUp cfg now l idx, x ∈ l := by
  intro idx
  induction idx using Nat.strong_induction_on with
  | _ idx ih =>
    intro l hlen x hx
    rw [siftUp] at hx
    dsimp only at hx
    split_ifs at hx with h1 h2
    · exact hx
    · have hsub := ih ((idx - 1) / 2) (by omega) (swap l idx ((idx - 1) / 2))
        (by rw [swap_length]; omega) x hx
      exact mem_swap l idx ((idx - 1) / 2) hlen (by omega) x hsub
    · exact hx

theorem siftDown_subset (cfg : PriorityQueueConfig) (now : ℤ) :
    ∀ (fuel : ℕ) (l : List HeapItem) (idx : ℕ), l.length - idx ≤ fuel →
      idx < l.length →
      ∀ x ∈ siftDown cfg now l idx, x ∈ l := by
  intro fuel
  induction fuel with
  | zero =>
    intro l idx hf hlen x hx
    rw [siftDown] at hx
    rcases eq_or_ne (smallestIdx cfg now l idx) idx with hs | hs
    · rw [if_pos hs] at hx
      exact hx
    · obtain ⟨hgt, hslen, _, _, _⟩ := smallestIdx_ne_spec cfg now l idx hs
      omega
  | succ fuel ih =>
    intro l idx hf hlen x hx
    rw [siftDown] at hx
    rcases eq_or_ne (smallestIdx cfg now l idx) idx with hs | hs
    · rw [if_pos hs] at hx
      exact hx
    · rw [if_neg hs] at hx
      obtain ⟨hgt, hslen, _, _, _⟩ := smallestIdx_ne_spec cfg now l idx hs
      have hsub := ih (swap l idx (smallestIdx cfg now l idx))
        (smallestIdx cfg now l idx)
        (by rw [swap_length]; omega) (by rw [swap_length]; omega) x hx
      exact mem_swap l idx (smallestIdx cfg now l idx) hlen hslen x hsub

end Dsa

namespace Dsa

theorem getD_append_left (l : List HeapItem) (x : HeapItem) (k : ℕ)
    (h : k < l.length) : (l ++ [x]).getD k default = l.getD k default := by
  simp [List.getD_eq_getElem?_getD, List.getElem?_append_left h]

theorem push_length (cfg : PriorityQueueConfig) (now : ℤ) (pq : List HeapItem)
    (item : HeapItem) : (push cfg now pq item).length = pq.length + 1 := by
  simp only [push]
  rw [siftUp_length]
  simp

/-- `Push` keeps the heap invariant. -/
theorem push_heap (cfg : PriorityQueueConfig) (now : ℤ) (pq : List HeapItem)
    (item : HeapItem) (h : isMinHeap cfg now pq) :
    isMinHeap cfg now (push cfg now pq item) := by
  simp only [push]
  have hidx : ((pq ++ [if item.submittedAt = 0
      then { item with submittedAt := now } else item]).length - 1) = pq.length := by
    simp
  rw [hidx]
  apply siftUp_heap cfg now pq.length _ (by simp)
  · intro i hi0 hilen hine
    simp only [List.length_append, List.length_singleton] at hilen
    have hi : i < pq.length := by omega
    rw [getD_append_left _ _ i hi, getD_append_left _ _ ((i - 1) / 2) (by omega)]
    exact h i hi0 hi
  · intro hpos c hc0 hclen hcp
    simp only [List.length_append, List.length_singleton] at hclen
    omega

/-- Pushing a list of items into the empty queue yields a heap of the same
size. -/
theorem pushAll_heap (cfg : PriorityQueueConfig) (now : ℤ) (items : List HeapItem) :
    isMinHeap cfg now (pushAll cfg now items) ∧
    (pushAll cfg now items).length = items.length := by
  have hgen : ∀ (l : List HeapItem) (pq : List HeapItem), isMinHeap cfg now pq →
      isMinHeap cfg now (l.foldl (push cfg now) pq) ∧
      (l.foldl (push cfg now) pq).length = pq.length + l.length := by
    intro l
    induction l with
    | nil => intro pq h; exact ⟨h, by simp⟩
    | cons x rest ih =>
      intro pq h
      obtain ⟨h1, h2⟩ := ih (push cfg now pq x) (push_heap cfg now pq x h)
      refine ⟨h1, ?_⟩
      rw [List.foldl_cons, h2, push_length]
      simp
      omega
  obtain ⟨h1, h2⟩ := hgen items [] (by intro i hi0 hilen; simp at hilen)
  exact ⟨h1, by rw [pushAll, h2]; simp⟩

/-- The minimal root key bounds every member of the heap. -/
theorem isMinHeap_root_le_mem (cfg : PriorityQueueConfig) (now : ℤ)
    (pq : List HeapItem) (h : isMinHeap cfg now pq) :
    ∀ x ∈ pq, keyLe (key cfg now (pq.getD 0 default)) (key cfg now x) := by
  intro x hx
  obtain ⟨i, hi, hix⟩ := List.mem_iff_getElem.mp hx
  have hgd : pq.getD i default = x := by
    rw [List.getD_eq_getElem?_getD, List.getElem?_eq_getElem hi]
    exact hix
  rw [← hgd]
  exact isMinHeap_root_le cfg now pq h i hi

/-- `Pop` on a non-empty heap returns the root, keeps the heap invariant and
never invents elements. -/
theorem pop_spec (cfg : PriorityQueueConfig) (now : ℤ) (pq : List HeapItem)
    (hne : pq ≠ []) (h : isMinHeap cfg now pq) :
    (pop cfg now pq).1 = some (pq.getD 0 default) ∧
    isMinHeap cfg now (pop cfg now pq).2 ∧
    ∀ x ∈ (pop cfg now pq).2, x ∈ pq := by
  have hlen : 0 < pq.length := List.length_pos.mpr hne
  simp only [pop, if_neg hne]
  refine ⟨trivial, ?_, ?_⟩
  all_goals {
    have hrest0 : ∀ k, k < pq.length - 1 →
        ((pq.set 0 (pq.getD (pq.length - 1) default)).take
          (pq.length - 1)).getD k default =
        (if k = 0 then pq.getD (pq.length - 1) default else pq.getD k default) := by
      intro k hk
      rw [List.getD_eq_getElem?_getD, List.getElem?_take, if_pos hk]
      by_cases hk0 : k = 0
      · subst hk0
        rw [if_pos rfl, List.getElem?_set_self (by omega)]
        rfl
      · rw [if_neg hk0, List.getElem?_set_ne (fun hh => hk0 hh.symm),
          List.getD_eq_getElem?_getD]
    have hl0 : ((pq.set 0 (pq.getD (pq.length - 1) default)).take
        (pq.length - 1)).length = pq.length - 1 := by simp
    first
    | -- heap invariant
      (split_ifs with hpos
       · apply siftDown_heap cfg now (pq.length - 1) _ 0 (by rw [hl0]; omega)
         · intro i hi0 hilen hip
           rw [hl0] at hilen
           have hine : i ≠ 0 := by omega
           have hpne : (i - 1) / 2 ≠ 0 := hip
           rw [hrest0 i hilen, hrest0 ((i - 1) / 2) (by omega),
             if_neg hine, if_neg hpne]
           exact h i hi0 (by omega)
         · intro h0 _ _ _ _
           omega
       · intro i hi0 hilen
         rw [hl0] at hpos
         omega)
    | -- membership
      (intro x hx
       split_ifs at hx with hpos
       · have hx0 := siftDown_subset cfg now (pq.length - 1) _ 0
           (by rw [hl0]; omega) (by rw [hl0]; omega) x hx
         have hx1 := List.mem_of_mem_take hx0
         rcases List.mem_or_eq_of_mem_set hx1 with hx2 | rfl
         · exact hx2
         · exact getD_mem pq (pq.length - 1) (by omega)
       · have hx1 := List.mem_of_mem_take hx
         rcases List.mem_or_eq_of_mem_set hx1 with hx2 | rfl
         · exact hx2
         · exact getD_mem pq (pq.length - 1) (by omega))
  }

end Dsa

namespace Dsa

/-- Draining a min-heap yields a key-sorted list of the same length whose
elements all come from the heap. -/
theorem popAll_spec (cfg : PriorityQueueConfig) (now : ℤ) :
    ∀ (fuel : ℕ) (pq : List HeapItem), pq.length ≤ fuel →
      isMinHeap cfg now pq →
      (popAll cfg now pq).length = pq.length ∧
      (∀ x ∈ popAll cfg now pq, x ∈ pq) ∧
      List.Sorted (fun a b => keyLe (key cfg now a) (key cfg now b))
        (popAll cfg now pq) := by
  intro fuel
  induction fuel with
  | zero =>
    intro pq hf h
    have hnil : pq = [] := List.length_eq_zero.mp (by omega)
    subst hnil
    rw [popAll]
    simp
  | succ fuel ih =>
    intro pq hf h
    by_cases hne : pq = []
    · subst hne
      rw [popAll]
      simp
    · rw [popAll, dif_neg hne]
      obtain ⟨hp1, hp2, hp3⟩ := pop_spec cfg now pq hne h
      have hrl : (pop cfg now pq).2.length = pq.length - 1 :=
        pop_length cfg now pq hne
      obtain ⟨ih1, ih2, ih3⟩ := ih (pop cfg now pq).2 (by omega) hp2
      have htop : (pop cfg now pq).1.getD default = pq.getD 0 default := by
        rw [hp1]
        rfl
      have hlen0 : 0 < pq.length := List.length_pos.mpr hne
      refine ⟨?_, ?_, ?_⟩
      · simp only [List.length_cons, ih1]
        omega
      · intro x hx
        rcases List.mem_cons.mp hx with rfl | hx'
        · rw [htop]
          exact getD_mem pq 0 hlen0
        · exact hp3 x (ih2 x hx')
      · rw [List.sorted_cons]
        refine ⟨?_, ih3⟩
        intro b hb
        rw [htop]
        exact isMinHeap_root_le_mem cfg now pq h b (hp3 b (ih2 b hb))

end Dsa

/-- **C8 (amended)** — With all operations performed at one clock instant
`now`: after pushing any sequence of items and popping them all, the popped
sequence is sorted by non-decreasing effective priority
`max(0, priority - min(MaxBoost, trunc(age/BoostInterval)))` (Go truncating
division), with ties in order of older `SubmittedAt` first, and every pushed
item is popped (same count). -/
theorem priorityQueue_pops_sorted (cfg : Dsa.PriorityQueueConfig) (now : ℤ)
    (items : List Dsa.HeapItem) :
    List.Sorted (fun a b =>
      Dsa.effectivePriority cfg now a < Dsa.effectivePriority cfg now b ∨
      (Dsa.effectivePriority cfg now a = Dsa.effectivePriority cfg now b ∧
        a.submittedAt ≤ b.submittedAt))
      (Dsa.popAll cfg now (Dsa.pushAll cfg now items)) ∧
    (Dsa.popAll cfg now (Dsa.pushAll cfg now items)).length = items.length := by
  obtain ⟨hheap, hlen⟩ := Dsa.pushAll_heap cfg now items
  obtain ⟨h1, h2, h3⟩ := Dsa.popAll_spec cfg now
    (Dsa.pushAll cfg now items).length (Dsa.pushAll cfg now items)
    (le_refl _) hheap
  refine ⟨?_, by rw [h1, hlen]⟩
  exact List.Pairwise.imp (fun hab => hab) h3

/-- The effective priority exactly as the claim words it:
`max(0, base_priority − min(MaxBoost, ⌊age/BoostInterval⌋))` with **floor**
division. -/
def effectivePrioritySpec (cfg : Dsa.PriorityQueueConfig) (now : ℤ)
    (item : Dsa.HeapItem) : ℤ :=
  max 0 (item.priority -
    min cfg.maxBoost (Int.fdiv (now - item.submittedAt) cfg.boostInterval))

/-- Counterexample to C8 as stated.  Run 1 (fixed clock 0): the item
`A = (priority 0, submitted 15)` has negative age, where Go's truncating
division differs from the claim's floor; the code pops `A` before
`B = (priority 2, submitted 0)` although both have claim-effective-priority
2 and `B` is older — the claimed tie-break fails.  Run 2 (clock advances
from 0 to 20 between the pushes and the pops): the pops come out with
effective priorities 1 then 0 — not non-decreasing — under both division
readings, so the claim also fails for a changing injected clock. -/
theorem priorityQueue_claim_counterexample :
    Dsa.popAll ⟨10, 2⟩ 0 (Dsa.pushAll ⟨10, 2⟩ 0
        [⟨"A", 0, 15⟩, ⟨"B", 2, 0⟩]) =
      [⟨"A", 0, 15⟩, ⟨"B", 2, 0⟩] ∧
    effectivePrioritySpec ⟨10, 2⟩ 0 ⟨"A", 0, 15⟩ =
      effectivePrioritySpec ⟨10, 2⟩ 0 ⟨"B", 2, 0⟩ ∧
    (⟨"B", 2, 0⟩ : Dsa.HeapItem).submittedAt <
      (⟨"A", 0, 15⟩ : Dsa.HeapItem).submittedAt ∧
    Dsa.popAll ⟨10, 2⟩ 20 (Dsa.pushAll ⟨10, 2⟩ 0
        [⟨"a", 3, -20⟩, ⟨"b", 2, 0⟩]) =
      [⟨"a", 3, -20⟩, ⟨"b", 2, 0⟩] ∧
    Dsa.effectivePriority ⟨10, 2⟩ 20 ⟨"b", 2, 0⟩ <
      Dsa.effectivePriority ⟨10, 2⟩ 20 ⟨"a", 3, -20⟩ ∧
    effectivePrioritySpec ⟨10, 2⟩ 20 ⟨"b", 2, 0⟩ <
      effectivePrioritySpec ⟨10, 2⟩ 20 ⟨"a", 3, -20⟩ := by
  have hless1 : Dsa.less ⟨10, 2⟩ 0 ⟨"B", 2, 0⟩ ⟨"A", 0, 15⟩ = false := by decide
  have hless2 : Dsa.less ⟨10, 2⟩ 0 ⟨"b", 2, 0⟩ ⟨"a", 3, -20⟩ = false := by decide
  have hsU1 : Dsa.siftUp ⟨10, 2⟩ 0 [⟨"A", 0, 15⟩] 0 = [⟨"A", 0, 15⟩] := by
    rw [Dsa.siftUp]
    norm_num
  have hsU2 : Dsa.siftUp ⟨10, 2⟩ 0 [⟨"A", 0, 15⟩, ⟨"B", 2, 0⟩] 1 =
      [⟨"A", 0, 15⟩, ⟨"B", 2, 0⟩] := by
    rw [Dsa.siftUp]
    norm_num [hless1]
  have hpush1 : Dsa.push ⟨10, 2⟩ 0 [] ⟨"A", 0, 15⟩ = [⟨"A", 0, 15⟩] := by
    simp only [Dsa.push]
    norm_num
    exact hsU1
  have hpush2 : Dsa.push ⟨10, 2⟩ 0 [⟨"A", 0, 15⟩] ⟨"B", 2, 0⟩ =
      [⟨"A", 0, 15⟩, ⟨"B", 2, 0⟩] := by
    simp only [Dsa.push]
    norm_num
    exact hsU2
  have hpushAll1 : Dsa.pushAll ⟨10, 2⟩ 0 [⟨"A", 0, 15⟩, ⟨"B", 2, 0⟩] =
      [⟨"A", 0, 15⟩, ⟨"B", 2, 0⟩] := by
    simp only [Dsa.pushAll, List.foldl_cons, List.foldl_nil, hpush1, hpush2]
  have hsd1 : Dsa.siftDown ⟨10, 2⟩ 0 [⟨"B", 2, 0⟩] 0 = [⟨"B", 2, 0⟩] := by
    rw [Dsa.siftDown]
    norm_num [Dsa.smallestIdx]
  have hpop1 : Dsa.pop ⟨10, 2⟩ 0 [⟨"A", 0, 15⟩, ⟨"B", 2, 0⟩] =
      (some ⟨"A", 0, 15⟩, [⟨"B", 2, 0⟩]) := by
    simp only [Dsa.pop]
    norm_num [hsd1]
    decide
  have hpop2 : Dsa.pop ⟨10, 2⟩ 0 [⟨"B", 2, 0⟩] = (some ⟨"B", 2, 0⟩, []) := by
    simp only [Dsa.pop]
    norm_num
  have hnil1 : Dsa.popAll (⟨10, 2⟩ : Dsa.PriorityQueueConfig) 0 [] = [] := by
    rw [Dsa.popAll]
    norm_num
  have hrun1 : Dsa.popAll ⟨10, 2⟩ 0 [⟨"A", 0, 15⟩, ⟨"B", 2, 0⟩] =
      [⟨"A", 0, 15⟩, ⟨"B", 2, 0⟩] := by
    rw [Dsa.popAll,
      dif_neg (by decide : ¬([⟨"A", 0, 15⟩, ⟨"B", 2, 0⟩] : List Dsa.HeapItem) = [])]
    rw [hpop1]
    norm_num
    rw [Dsa.popAll,
      dif_neg (by decide : ¬([⟨"B", 2, 0⟩] : List Dsa.HeapItem) = [])]
    rw [hpop2]
    norm_num
    exact hnil1
  have hsU3 : Dsa.siftUp ⟨10, 2⟩ 0 [⟨"a", 3, -20⟩] 0 = [⟨"a", 3, -20⟩] := by
    rw [Dsa.siftUp]
    norm_num
  have hsU4 : Dsa.siftUp ⟨10, 2⟩ 0 [⟨"a", 3, -20⟩, ⟨"b", 2, 0⟩] 1 =
      [⟨"a", 3, -20⟩, ⟨"b", 2, 0⟩] := by
    rw [Dsa.siftUp]
    norm_num [hless2]
  have hpush3 : Dsa.push ⟨10, 2⟩ 0 [] ⟨"a", 3, -20⟩ = [⟨"a", 3, -20⟩] := by
    simp only [Dsa.push]
    norm_num
    exact hsU3
  have hpush4 : Dsa.push ⟨10, 2⟩ 0 [⟨"a", 3, -20⟩] ⟨"b", 2, 0⟩ =
      [⟨"a", 3, -20⟩, ⟨"b", 2, 0⟩] := by
    simp only [Dsa.push]
    norm_num
    exact hsU4
  have hpushAll2 : Dsa.pushAll ⟨10, 2⟩ 0 [⟨"a", 3, -20⟩, ⟨"b", 2, 0⟩] =
      [⟨"a", 3, -20⟩, ⟨"b", 2, 0⟩] := by
    simp only [Dsa.pushAll, List.foldl_cons, List.foldl_nil, hpush3, hpush4]
  have hsd2 : Dsa.siftDown ⟨10, 2⟩ 20 [⟨"b", 2, 0⟩] 0 = [⟨"b", 2, 0⟩] := by
    rw [Dsa.siftDown]
    norm_num [Dsa.smallestIdx]
  have hpop3 : Dsa.pop ⟨10, 2⟩ 20 [⟨"a", 3, -20⟩, ⟨"b", 2, 0⟩] =
      (some ⟨"a", 3, -20⟩, [⟨"b", 2, 0⟩]) := by
    simp only [Dsa.pop]
    norm_num [hsd2]
    decide
  have hpop4 : Dsa.pop ⟨10, 2⟩ 20 [⟨"b", 2, 0⟩] = (some ⟨"b", 2, 0⟩, []) := by
    simp only [Dsa.pop]
    norm_num
  have hnil2 : Dsa.popAll (⟨10, 2⟩ : Dsa.PriorityQueueConfig) 20 [] = [] := by
    rw [Dsa.popAll]
    norm_num
  have hrun2 : Dsa.popAll ⟨10, 2⟩ 20 [⟨"a", 3, -20⟩, ⟨"b", 2, 0⟩] =
      [⟨"a", 3, -20⟩, ⟨"b", 2, 0⟩] := by
    rw [Dsa.popAll,
      dif_neg (by decide : ¬([⟨"a", 3, -20⟩, ⟨"b", 2, 0⟩] : List Dsa.HeapItem) = [])]
    rw [hpop3]
    norm_num
    rw [Dsa.popAll,
      dif_neg (by decide : ¬([⟨"b", 2, 0⟩] : List Dsa.HeapItem) = [])]
    rw [hpop4]
    norm_num
    exact hnil2
  refine ⟨?_, by decide, by decide, ?_, by decide, by decide⟩
  · rw [hpushAll1, hrun1]
  · rw [hpushAll2, hrun2]
